import Mathlib

/-!
Verification of the message-passing implicit-solvent energy model
(`src/MachineLearning/GNN_Models.py`) and the dataset accessors
(`src/datasets/bigbind_solv.py`).

The Python code is shallowly embedded: pure tensor formulas become Lean
functions over `ℚ` (when fully computable) or `ℝ` (when they involve the
sigmoid, which needs `Real.exp`); fallible code returns `Except`;
reverse-mode automatic differentiation of a scalar path is embedded by
dual numbers, with `torch.no_grad()` modelled as zeroing the derivative
component.  The learned layers (`GNN_Layers.py`, not part of the sources)
are modelled from the spec as local message-passing stages and appear as
universally quantified stage functions.
-/

/-- Logistic sigmoid, `torch.nn.Sigmoid`: `1 / (1 + exp (-x))`. -/
noncomputable def sigmoidR (x : ℝ) : ℝ := 1 / (1 + Real.exp (-x))

/-- SiLU / swish activation, `torch.nn.SiLU`: `x * sigmoid x`. -/
noncomputable def siluR (x : ℝ) : ℝ := x * sigmoidR x

theorem sigmoidR_pos (x : ℝ) : 0 < sigmoidR x := by
  unfold sigmoidR
  positivity

theorem sigmoidR_lt_one (x : ℝ) : sigmoidR x < 1 := by
  unfold sigmoidR
  rw [div_lt_one (by positivity)]
  linarith [Real.exp_pos (-x)]

/- ### C3 : bounded multiplicative Born-radius correction

`GNN_Models.py` lines 428-430:
`Bcn = Bc[:, 0].unsqueeze(1) * (self._fraction + self.sigmoid(c_scale.unsqueeze(1)) * (1 - self._fraction) * 2)`. -/

/-- Multiplicative factor applied to the raw aggregated Born term
(`self._fraction + self.sigmoid(c_scale) * (1 - self._fraction) * 2`). -/
noncomputable def correctionFactor (fraction c_scale : ℝ) : ℝ :=
  fraction + sigmoidR c_scale * (1 - fraction) * 2

/-- Corrected Born radius, line 428: raw aggregated Born term times the
correction factor. -/
noncomputable def correctedBorn (B fraction c_scale : ℝ) : ℝ :=
  B * correctionFactor fraction c_scale

/-- C3: for every raw aggregated Born term `B ≥ 0` and every
correction-network output `c_scale`, the corrected Born radius
`B * (fraction + sigmoid c_scale * (1 - fraction) * 2)` lies between
`fraction * B` and `(1 + (1 - fraction)) * B`; equivalently the
multiplicative factor lies between `fraction` and `2 - fraction`. -/
theorem born_correction_bounded (B fraction c_scale : ℝ)
    (hB : 0 ≤ B) (hf : fraction ≤ 1) :
    fraction * B ≤ correctedBorn B fraction c_scale ∧
      correctedBorn B fraction c_scale ≤ (1 + (1 - fraction)) * B ∧
      fraction ≤ correctionFactor fraction c_scale ∧
      correctionFactor fraction c_scale ≤ 2 - fraction := by
  have h0 := sigmoidR_pos c_scale
  have h1 := sigmoidR_lt_one c_scale
  have hfn : 0 ≤ 1 - fraction := sub_nonneg.mpr hf
  have hb1 : 0 ≤ B * sigmoidR c_scale * (1 - fraction) :=
    mul_nonneg (mul_nonneg hB h0.le) hfn
  have hb2 : 0 ≤ B * (1 - fraction) * (1 - sigmoidR c_scale) :=
    mul_nonneg (mul_nonneg hB hfn) (sub_nonneg.mpr h1.le)
  unfold correctedBorn correctionFactor
  refine ⟨by nlinarith, by nlinarith, by nlinarith, by nlinarith⟩

/-- Witness for `born_correction_bounded` at `B = 1`, `fraction = 1/2`,
`c_scale = 0`. -/
theorem born_correction_bounded_witness :
    (0 : ℝ) ≤ 1 ∧ (1 / 2 : ℝ) ≤ 1 ∧
      ((1 / 2 : ℝ) * 1 ≤ correctedBorn 1 (1 / 2) 0 ∧
        correctedBorn 1 (1 / 2) 0 ≤ (1 + (1 - 1 / 2)) * 1 ∧
        (1 / 2 : ℝ) ≤ correctionFactor (1 / 2) 0 ∧
        correctionFactor (1 / 2) 0 ≤ 2 - 1 / 2) :=
  ⟨zero_le_one, one_half_lt_one.le,
    born_correction_bounded 1 (1 / 2) 0 zero_le_one one_half_lt_one.le⟩

/- ### C2 : surface-area energy term

Main model (`GNN_Models.py` lines 420-425):
`sa_scale = Bcn[:, 1]`,
`radius = (x[:, 1] + self.offset).unsqueeze(1)`,
`sa_energies = 4.184 * self.gamma * sa_scale.unsqueeze(1) * (radius + 0.14).pow(2) * 100`
with `self.gamma = 0.00542` and `self.offset = 0.0195141` (lines 342-343).
Note that no sigmoid is applied to `sa_scale` here.

Run-multiple variant (lines 727-735):
`sasa = self.sigmoid(sa_scale.unsqueeze(1)) * (radius + 0.14)**2`,
`sa_energies = 4.184 * gamma * sasa * 100`. -/

/-- Surface-tension constant `self.gamma` (line 342), kcal/(mol Å²). -/
noncomputable def gammaR : ℝ := 0.00542

/-- Radius offset constant `self.offset` (line 343). -/
noncomputable def offsetR : ℝ := 0.0195141

/-- Per-atom SA energy of the main model (line 425), as a function of the
raw SA-scale channel `sa_scale = Bcn[:, 1]` and the intrinsic-radius
feature `x[:, 1]`.  The code multiplies the raw channel directly. -/
noncomputable def saEnergiesMain (sa_scale x1 : ℝ) : ℝ :=
  4.184 * gammaR * sa_scale * ((x1 + offsetR) + 0.14) ^ 2 * 100

/-- Per-atom SA energy of the run-multiple variant (lines 733-735), where
the SA-scale channel is passed through the sigmoid. -/
noncomputable def saEnergiesRun (sa_scale x1 : ℝ) : ℝ :=
  4.184 * gammaR * (sigmoidR sa_scale * ((x1 + offsetR) + 0.14) ^ 2) * 100

/-- Per-atom SA energy as the claim states it (spec §4.4/§4.5): the
SA-scale channel is passed through a sigmoid and the result weights
`4.184 * gamma * (radius + 0.14)^2 * 100`.  This definition follows the
spec's words, for comparison with the definitions taken from the code. -/
noncomputable def saEnergiesClaim (sa_scale x1 : ℝ) : ℝ :=
  4.184 * gammaR * sigmoidR sa_scale * ((x1 + offsetR) + 0.14) ^ 2 * 100

/-- C2 counterexample: in the main model's forward no sigmoid is applied
to the SA-scale channel, so at channel value `-1` the per-atom SA energy
of the code is negative and differs from the value the claim prescribes
(which is positive, the weighting factor being `sigmoid (-1) ∈ (0,1)`). -/
theorem sa_sigmoid_counterexample :
    saEnergiesMain (-1) 0 ≠ saEnergiesClaim (-1) 0 ∧ saEnergiesMain (-1) 0 < 0 := by
  have hs := sigmoidR_pos (-1)
  have hmain : saEnergiesMain (-1) 0 < 0 := by
    unfold saEnergiesMain gammaR offsetR
    norm_num
  have hclaim : 0 < saEnergiesClaim (-1) 0 := by
    unfold saEnergiesClaim
    have h1 : (0 : ℝ) < 4.184 * gammaR := by unfold gammaR; norm_num
    have h2 : (0 : ℝ) < ((0 + offsetR) + 0.14) ^ 2 := by unfold offsetR; positivity
    have := mul_pos (mul_pos (mul_pos h1 hs) h2) (by norm_num : (0:ℝ) < 100)
    linarith
  exact ⟨by linarith, hmain⟩

/-- C2 amended: the run-multiple variant applies the sigmoid to the
SA-scale channel, giving a weighting factor in `(0,1)` and the energy
formula the claim states; the main model's forward uses the raw channel
value (no sigmoid), so its weighting factor is unbounded. -/
theorem sa_energy_formulas (s x1 : ℝ) :
    saEnergiesRun s x1 = 4.184 * gammaR * sigmoidR s * ((x1 + offsetR) + 0.14) ^ 2 * 100 ∧
      0 < sigmoidR s ∧ sigmoidR s < 1 ∧
      saEnergiesMain s x1 = 4.184 * gammaR * s * ((x1 + offsetR) + 0.14) ^ 2 * 100 := by
  refine ⟨?_, sigmoidR_pos s, sigmoidR_lt_one s, rfl⟩
  unfold saEnergiesRun
  ring

/- ### C4 : zero-lambda vanishing

`GNN_Models.py` lines 333-339: the two scale networks are
`nn.Sequential(nn.Linear(1, h), nn.SiLU(), nn.Linear(h, 1), nn.Sigmoid())`.
Lines 373-378: `sterics_scale = self.sterics_ff(lambda_sterics.view(-1,1)) * lambda_sterics.view(-1,1)`
and likewise for electrostatics.
Line 442: `energies = elec_energies * l_electrostatics + sa_energies * l_sterics`. -/

/-- Scalar-to-scalar feed-forward net `Linear(1,n) → SiLU → Linear(n,1) → Sigmoid`
with explicit weights, embedding `self.sterics_ff` / `self.electrostatics_ff`. -/
noncomputable def mlpScaleNet {n : ℕ} (w1 b1 w2 : Fin n → ℝ) (b2 : ℝ) (lam : ℝ) : ℝ :=
  sigmoidR ((∑ i, w2 i * siluR (w1 i * lam + b1 i)) + b2)

/-- Learned lambda scale, lines 373-378: the feed-forward output multiplied
by the raw lambda value. -/
noncomputable def learnedScale {n : ℕ} (w1 b1 w2 : Fin n → ℝ) (b2 : ℝ) (lam : ℝ) : ℝ :=
  mlpScaleNet w1 b1 w2 b2 lam * lam

/-- Per-atom energy combination, line 442. -/
def perAtomEnergy (elec l_e sa l_s : ℝ) : ℝ := elec * l_e + sa * l_s

/-- Total energy `energies.sum()` over per-atom electrostatic and SA
energies, with the two learned scales broadcast to every atom. -/
def totalEnergyZipped (elecs sas : List ℝ) (l_e l_s : ℝ) : ℝ :=
  ((elecs.zip sas).map (fun p => perAtomEnergy p.1 l_e p.2 l_s)).sum

/-- C4: at `lambda_sterics = 0` and `lambda_electrostatics = 0` each
learned scale is exactly `0` (it is the feed-forward output times the raw
lambda), the per-atom energy `elec * l_e + sa * l_s` vanishes, and hence
the total energy returned by the forward evaluation is `0`, for any
network weights and any per-atom energies. -/
theorem zero_lambda_vanishing {n m : ℕ} (w1 b1 w2 : Fin n → ℝ) (b2 : ℝ)
    (v1 c1 v2 : Fin m → ℝ) (c2 : ℝ) (elecs sas : List ℝ) :
    learnedScale w1 b1 w2 b2 0 = 0 ∧ learnedScale v1 c1 v2 c2 0 = 0 ∧
      totalEnergyZipped elecs sas (learnedScale v1 c1 v2 c2 0)
        (learnedScale w1 b1 w2 b2 0) = 0 := by
  have hs : learnedScale w1 b1 w2 b2 0 = 0 := mul_zero _
  have he : learnedScale v1 c1 v2 c2 0 = 0 := mul_zero _
  refine ⟨hs, he, ?_⟩
  rw [hs, he]
  unfold totalEnergyZipped
  refine List.sum_eq_zero ?_
  intro x hx
  rcases List.mem_map.mp hx with ⟨p, _, rfl⟩
  simp [perAtomEnergy]

/- ### C6 : radial basis edge features

`GNN_GBNeck.get_edge_features` (`GNN_Models.py` lines 77-92):
`m = alpha * (max_range - min_range) / (num_kernels + 1)`,
`centers = torch.linspace(min_range + m, max_range - m, num_kernels)`,
`return torch.maximum(0, torch.pow(1 - ((d - centers) / m) ** 2, 3))`. -/

/-- Evenly spaced grid, `torch.linspace lo hi steps`: entry `i` is
`lo + i * (hi - lo) / (steps - 1)`. -/
def linspaceQ (lo hi : ℚ) (steps : ℕ) : List ℚ :=
  (List.range steps).map (fun i : ℕ => lo + (i : ℚ) * (hi - lo) / ((steps : ℚ) - 1))

/-- Kernel half-width `m = alpha * (max_range - min_range) / (num_kernels + 1)`
(line 83). -/
def rbfMargin (alpha maxR minR : ℚ) (K : ℕ) : ℚ :=
  alpha * (maxR - minR) / ((K : ℚ) + 1)

/-- Kernel centers, lines 84-89: `linspace (min_range + m) (max_range - m) K`. -/
def rbfCenters (alpha maxR minR : ℚ) (K : ℕ) : List ℚ :=
  linspaceQ (minR + rbfMargin alpha maxR minR K) (maxR - rbfMargin alpha maxR minR K) K

/-- Radial basis encoding of one scalar distance, lines 90-92:
each entry is `max 0 ((1 - ((d - center) / m)^2)^3)`. -/
def get_edge_features (d alpha maxR minR : ℚ) (K : ℕ) : List ℚ :=
  (rbfCenters alpha maxR minR K).map
    (fun c => max 0 ((1 - ((d - c) / rbfMargin alpha maxR minR K) ^ 2) ^ 3))

theorem linspaceQ_length (lo hi : ℚ) (steps : ℕ) :
    (linspaceQ lo hi steps).length = steps := by
  rw [linspaceQ, List.length_map, List.length_range]

theorem linspaceQ_getD (lo hi : ℚ) (steps : ℕ) (i : ℕ) (h : i < steps) :
    (linspaceQ lo hi steps).getD i 0 = lo + i * (hi - lo) / ((steps : ℚ) - 1) := by
  have hl : i < (linspaceQ lo hi steps).length := by rw [linspaceQ_length]; exact h
  rw [List.getD_eq_getElem _ _ hl]
  simp only [linspaceQ, List.getElem_map, List.getElem_range]

/-- C6: the radial basis encoding has exactly `num_kernels` entries; the
centers run evenly spaced from `min_range + margin` to `max_range - margin`;
each entry equals `max 0 ((1 - ((d - center) / margin)^2)^3)`, is
nonnegative, and is exactly zero whenever `|d - center| ≥ margin`. -/
theorem get_edge_features_spec (d alpha maxR minR : ℚ) (K : ℕ)
    (hm : 0 < rbfMargin alpha maxR minR K) (hK : 2 ≤ K) :
    (get_edge_features d alpha maxR minR K).length = K ∧
      (rbfCenters alpha maxR minR K).getD 0 0 = minR + rbfMargin alpha maxR minR K ∧
      (rbfCenters alpha maxR minR K).getD (K - 1) 0 = maxR - rbfMargin alpha maxR minR K ∧
      (∀ i, i + 1 < K →
        (rbfCenters alpha maxR minR K).getD (i + 1) 0
            - (rbfCenters alpha maxR minR K).getD i 0
          = ((maxR - rbfMargin alpha maxR minR K) - (minR + rbfMargin alpha maxR minR K))
              / ((K : ℚ) - 1)) ∧
      (∀ i, i < K →
        (get_edge_features d alpha maxR minR K).getD i 0
            = max 0 ((1 - ((d - (rbfCenters alpha maxR minR K).getD i 0)
                / rbfMargin alpha maxR minR K) ^ 2) ^ 3) ∧
          0 ≤ (get_edge_features d alpha maxR minR K).getD i 0 ∧
          (rbfMargin alpha maxR minR K ≤ |d - (rbfCenters alpha maxR minR K).getD i 0| →
            (get_edge_features d alpha maxR minR K).getD i 0 = 0)) := by
  set m := rbfMargin alpha maxR minR K with hmdef
  have hlen : (rbfCenters alpha maxR minR K).length = K := linspaceQ_length _ _ _
  have hKcast : ((K : ℚ) - 1) ≠ 0 := by
    have : (2 : ℚ) ≤ (K : ℚ) := by exact_mod_cast hK
    intro h
    nlinarith
  have hcget : ∀ i, i < K → (rbfCenters alpha maxR minR K).getD i 0
      = (minR + m) + i * ((maxR - m) - (minR + m)) / ((K : ℚ) - 1) := by
    intro i hi
    exact linspaceQ_getD _ _ _ _ hi
  have hfget : ∀ i, i < K → (get_edge_features d alpha maxR minR K).getD i 0
      = max 0 ((1 - ((d - (rbfCenters alpha maxR minR K).getD i 0) / m) ^ 2) ^ 3) := by
    intro i hi
    rw [get_edge_features, List.getD_eq_getElem _ _ (by simpa [hlen]),
      List.getElem_map, List.getD_eq_getElem _ _ (by simpa [hlen])]
  refine ⟨by rw [get_edge_features, List.length_map, hlen], ?_, ?_, ?_, ?_⟩
  · rw [hcget 0 (by omega)]
    norm_num
  · rw [hcget (K - 1) (by omega)]
    have hc : ((K - 1 : ℕ) : ℚ) = (K : ℚ) - 1 := by
      have h1 : (1 : ℕ) ≤ K := by omega
      push_cast [h1]
      ring
    rw [hc]
    field_simp
  · intro i hi
    rw [hcget (i + 1) hi, hcget i (by omega)]
    push_cast
    ring
  · intro i hi
    refine ⟨hfget i hi, ?_, ?_⟩
    · rw [hfget i hi]
      exact le_max_left 0 _
    · intro habs
      rw [hfget i hi]
      set k := d - (rbfCenters alpha maxR minR K).getD i 0 with hk
      have hk2 : m ^ 2 ≤ k ^ 2 := by
        have h1 : m * m ≤ |k| * |k| := mul_self_le_mul_self hm.le habs
        rw [abs_mul_abs_self] at h1
        nlinarith
      have hquot : 1 ≤ (k / m) ^ 2 := by
        rw [div_pow]
        rw [le_div_iff₀ (by positivity)]
        linarith
      have hodd : Odd 3 := ⟨1, by norm_num⟩
      have hcube : (1 - (k / m) ^ 2) ^ 3 ≤ 0 :=
        hodd.pow_nonpos (by linarith)
      exact max_eq_left hcube

/-- Witness for `get_edge_features_spec` at the configuration defaults
`alpha = 2`, `max_range = 2/5`, `min_range = 1/10`, `num_kernels = 32`,
with `d = 1/4`. -/
theorem get_edge_features_spec_witness :
    0 < rbfMargin 2 (2/5) (1/10) 32 ∧ 2 ≤ 32 ∧
      ((get_edge_features (1/4) 2 (2/5) (1/10) 32).length = 32 ∧
        (rbfCenters 2 (2/5) (1/10) 32).getD 0 0 = 1/10 + rbfMargin 2 (2/5) (1/10) 32 ∧
        (rbfCenters 2 (2/5) (1/10) 32).getD (32 - 1) 0
          = 2/5 - rbfMargin 2 (2/5) (1/10) 32 ∧
        (∀ i, i + 1 < 32 →
          (rbfCenters 2 (2/5) (1/10) 32).getD (i + 1) 0
              - (rbfCenters 2 (2/5) (1/10) 32).getD i 0
            = ((2/5 - rbfMargin 2 (2/5) (1/10) 32) - (1/10 + rbfMargin 2 (2/5) (1/10) 32))
                / ((32 : ℚ) - 1)) ∧
        (∀ i, i < 32 →
          (get_edge_features (1/4) 2 (2/5) (1/10) 32).getD i 0
              = max 0 ((1 - (((1/4) - (rbfCenters 2 (2/5) (1/10) 32).getD i 0)
                  / rbfMargin 2 (2/5) (1/10) 32) ^ 2) ^ 3) ∧
            0 ≤ (get_edge_features (1/4) 2 (2/5) (1/10) 32).getD i 0 ∧
            (rbfMargin 2 (2/5) (1/10) 32
                ≤ |(1/4) - (rbfCenters 2 (2/5) (1/10) 32).getD i 0| →
              (get_edge_features (1/4) 2 (2/5) (1/10) 32).getD i 0 = 0))) :=
  ⟨by norm_num [rbfMargin], by norm_num,
    get_edge_features_spec (1/4) 2 (2/5) (1/10) 32 (by norm_num [rbfMargin]) (by norm_num)⟩

/- ### C8 : the "No GNN Params Given" check

`GNN_Models.py` lines 380-394:
```
if batch is None:
    batch = torch.zeros(size=(len(self.gnn_params), )).to(torch.long)
if self.gnn_params is not None:
    x = torch.cat([self.gnn_params, lambda_e expanded, lambda_s expanded], dim=-1)
elif torch.is_tensor(atom_features):
    x = atom_features
else:
    raise Exception("No GNN Params Given")
```
Note the batch default on line 381 calls `len(self.gnn_params)`, which in
Python raises a `TypeError` when `gnn_params` is `None`, before the
`if/elif/else` chain is reached. -/

/-- Atom-input resolution of the forward evaluation, lines 380-394.  The
result carries the per-atom feature matrix `x` and the batch vector; the
two failure modes are the `TypeError` from `len(None)` on line 381 and the
explicit `Exception("No GNN Params Given")` on line 394. -/
def gnnParamsCheck (gnn_params atom_features : Option (List (List ℚ)))
    (batch : Option (List ℕ)) (lamE lamS : ℚ) :
    Except String (List (List ℚ) × List ℕ) :=
  let batchE : Except String (List ℕ) :=
    match batch, gnn_params with
    | some b, _ => .ok b
    | none, some p => .ok (List.replicate p.length 0)
    | none, none => .error "TypeError: len of None"
  batchE.bind (fun b =>
    match gnn_params with
    | some p => .ok (p.map (fun row => row ++ [lamE, lamS]), b)
    | none =>
      match atom_features with
      | some a => .ok (a, b)
      | none => .error "No GNN Params Given")

/-- C8 counterexample: with `gnn_params = None` but an `atom_features`
tensor supplied — one of the two input representations present — and the
default `batch = None`, the forward still raises (the batch-default line
evaluates `len(None)`), contradicting the claim that evaluation proceeds
past the check whenever at least one representation is present. -/
theorem gnn_params_check_counterexample :
    gnnParamsCheck none (some [[1]]) none 0 0 = Except.error "TypeError: len of None" ∧
      (some ([[1]] : List (List ℚ))).isSome = true := ⟨rfl, rfl⟩

/-- C8 amended: the `"No GNN Params Given"` exception is raised iff both
input representations are absent and a batch vector was supplied; when
`batch` is `None` and `gnn_params` is `None` the preceding batch-default
line raises a `TypeError` instead (even if `atom_features` is present);
in every other case evaluation proceeds past the check. -/
theorem gnn_params_check_spec (gnn_params atom_features : Option (List (List ℚ)))
    (batch : Option (List ℕ)) (lamE lamS : ℚ) :
    (gnnParamsCheck gnn_params atom_features batch lamE lamS
        = Except.error "No GNN Params Given" ↔
      gnn_params = none ∧ atom_features = none ∧ batch.isSome = true) ∧
      ((gnnParamsCheck gnn_params atom_features batch lamE lamS).isOk = true ↔
        gnn_params.isSome = true ∨ (atom_features.isSome = true ∧ batch.isSome = true)) := by
  cases gnn_params <;> cases atom_features <;> cases batch <;>
    simp [gnnParamsCheck, Except.bind, Except.isOk, Except.toBool]

/- ### C10 : live return path of the forward evaluation

`GNN_Models.py` lines 444-460: after `gradients_f` is computed,
```
if gradients_f is not None:
    forces = torch.neg(gradients_f)
    if retrieve_forces:
        return (energies.sum(), forces)
```
and everything after (the per-molecule energy / lambda-gradient section,
lines 462-501) sits inside a string literal, so the function falls
through and returns `None` on every other path. -/

/-- Return logic of the forward evaluation, lines 444-460: the pair
`(energies.sum(), torch.neg(gradients_f))` is returned exactly when the
position gradient exists and `retrieve_forces` is true; otherwise the
function falls off the end (Python `None`). -/
def forwardReturn (retrieve_forces : Bool) (gradients_f : Option (List ℚ))
    (energySum : ℚ) : Option (ℚ × List ℚ) :=
  match gradients_f with
  | some g => if retrieve_forces then some (energySum, g.map (fun v => -v)) else none
  | none => none

/-- C10: with `retrieve_forces` false the forward returns `None`; the only
live return path yields `(energies.sum(), -gradients)` and is taken exactly
when `retrieve_forces` is true and the gradient exists; no energy-only or
lambda-gradient result is ever returned. -/
theorem forward_return_paths (rf : Bool) (g : Option (List ℚ)) (e : ℚ) :
    forwardReturn false g e = none ∧
      ((forwardReturn rf g e).isSome = true ↔ rf = true ∧ g.isSome = true) ∧
      (∀ grad, forwardReturn true (some grad) e = some (e, grad.map (fun v => -v))) := by
  refine ⟨?_, ?_, fun grad => rfl⟩
  · cases g <;> rfl
  · cases g <;> cases rf <;> simp [forwardReturn]

/- ### C1 : the GB electrostatic branch is detached from the force

`GNN_Models.py` lines 435-437:
```
with torch.no_grad():
    elec_energies = self.calculate_energies(x=Bc, edge_index=edge_index, edge_attributes=edge_attributes)
```
then line 442 `energies = elec_energies * l_electrostatics + sa_energies * l_sterics`
and lines 449-456 return `forces = -autograd.grad(energies.sum(), positions)`.

Reverse-mode automatic differentiation of the scalar path from one
position coordinate to the energy is embedded by dual numbers: `val` is
the tensor value and `dv` the derivative with respect to that coordinate.
`torch.no_grad()` detaches its result from the tape, i.e. zeroes the
derivative component.  The internals of `calculate_energies`
(`GNN_Layers.py`, not among the sources) stay an arbitrary differentiable
function `elec` of the position coordinate; per spec §4.5 the GB
polarization energy depends on inter-atom distances and hence on
positions. -/

/-- Dual number: value and derivative with respect to one chosen input
position coordinate. -/
structure ADual where
  val : ℚ
  dv : ℚ
deriving Repr, DecidableEq

instance : Add ADual := ⟨fun a b => ⟨a.val + b.val, a.dv + b.dv⟩⟩

instance : Mul ADual := ⟨fun a b => ⟨a.val * b.val, a.dv * b.val + a.val * b.dv⟩⟩

instance : Neg ADual := ⟨fun a => ⟨-a.val, -a.dv⟩⟩

/-- Constant tensor: no dependence on positions. -/
def ADual.konst (c : ℚ) : ADual := ⟨c, 0⟩

/-- Result of a computation performed under `torch.no_grad()`: the value
is kept, the tape connection (derivative) is dropped. -/
def ADual.stopGrad (a : ADual) : ADual := ⟨a.val, 0⟩

/-- The tracked position coordinate (`positions.requires_grad_(True)`). -/
def ADual.var (x : ℚ) : ADual := ⟨x, 1⟩

/-- Energy assembly as the code computes it, lines 435-442: the GB
electrostatic term is evaluated under `torch.no_grad()` (detached), the SA
term is not, and `energies = elec_energies * l_electrostatics +
sa_energies * l_sterics`. -/
def energiesCode (elec sa : ADual → ADual) (l_e l_s : ℚ) (t : ADual) : ADual :=
  ADual.stopGrad (elec t) * ADual.konst l_e + sa t * ADual.konst l_s

/-- Energy assembly as the claim states it: the same expression with the
GB electrostatic branch connected to the gradient tape. -/
def energiesClaim (elec sa : ADual → ADual) (l_e l_s : ℚ) (t : ADual) : ADual :=
  elec t * ADual.konst l_e + sa t * ADual.konst l_s

/-- Force the code returns for the tracked coordinate, lines 449-456:
negated derivative of the code's energy. -/
def forceCode (elec sa : ADual → ADual) (l_e l_s x : ℚ) : ℚ :=
  -(energiesCode elec sa l_e l_s (ADual.var x)).dv

/-- Force the claim asserts: negated derivative of the energy with the GB
branch attached. -/
def forceClaim (elec sa : ADual → ADual) (l_e l_s x : ℚ) : ℚ :=
  -(energiesClaim elec sa l_e l_s (ADual.var x)).dv

/-- C1: because `calculate_energies` runs under `torch.no_grad()`, the
force the code returns equals the negated derivative of the SA branch
alone; whenever the GB electrostatic energy actually varies with the
position coordinate (and the electrostatic scale is nonzero) it differs
from the claimed force `-dE/dx` through the entire pipeline — the GB
contribution is missing from the returned forces. -/
theorem gb_branch_detached (elec sa : ADual → ADual) (l_e l_s x : ℚ)
    (h : (elec (ADual.var x)).dv * l_e ≠ 0) :
    forceCode elec sa l_e l_s x = -((sa (ADual.var x)).dv * l_s) ∧
      forceCode elec sa l_e l_s x ≠ forceClaim elec sa l_e l_s x := by
  have hcode : forceCode elec sa l_e l_s x = -((sa (ADual.var x)).dv * l_s) := by
    unfold forceCode energiesCode ADual.stopGrad ADual.konst
    show -((0 * l_e + (elec (ADual.var x)).val * 0) + ((sa (ADual.var x)).dv * l_s + (sa (ADual.var x)).val * 0)) = _
    ring
  have hclaim : forceClaim elec sa l_e l_s x
      = -((elec (ADual.var x)).dv * l_e + (sa (ADual.var x)).dv * l_s) := by
    unfold forceClaim energiesClaim ADual.konst
    show -(((elec (ADual.var x)).dv * l_e + (elec (ADual.var x)).val * 0)
        + ((sa (ADual.var x)).dv * l_s + (sa (ADual.var x)).val * 0)) = _
    ring
  refine ⟨hcode, ?_⟩
  rw [hcode, hclaim]
  intro heq
  apply h
  linarith [neg_injective heq]

/-- Witness for `gb_branch_detached`: identity electrostatic and SA
branches, electrostatic scale `1`, sterics scale `0`, coordinate `0` —
the GB energy has derivative `1`, the code's force is `0`, the claimed
force is `-1`. -/
theorem gb_branch_detached_witness :
    ((fun t : ADual => t) (ADual.var 0)).dv * 1 ≠ 0 ∧
      (forceCode (fun t => t) (fun t => t) 1 0 0
          = -(((fun t : ADual => t) (ADual.var 0)).dv * 0) ∧
        forceCode (fun t => t) (fun t => t) 1 0 0
          ≠ forceClaim (fun t => t) (fun t => t) 1 0 0) :=
  ⟨by simp [ADual.var], gb_branch_detached (fun t => t) (fun t => t) 1 0 0 (by simp [ADual.var])⟩

/- ### C9 : dataset item access checks

`src/datasets/bigbind_solv.py`.  `MAFBigBind.__getitem__` (lines 26-35)
raises `IndexError("Index out of bounds")` when `index >= len(self)` and
`IndexError("Empty positions encountered")` when frame 0 of the stored
positions is empty.  `BigBindSolvDataset.__getitem__` (lines 95-117)
reduces the index modulo the number of stored groups (`index % self.length`)
and performs neither check.  The post-check openmm parameter processing of
`MAFBigBind` is external and elided; the payload modelled is the selected
positions frame. -/

/-- One HDF5 group of a dataset split: per-frame atom positions plus
per-atom data. -/
structure DsGroup where
  charges : List ℚ
  positions : List (List (ℚ × ℚ × ℚ))
  atomicNumbers : List ℕ
  solvForces : List (List (ℚ × ℚ × ℚ))
  lambdaStericsFrames : List ℚ
  lambdaElectrostaticsFrames : List ℚ
deriving Inhabited

/-- `MAFBigBind.__getitem__`, lines 26-35: bounds check, frame-0 positions,
empty check, then the item is built from the selected frame. -/
def MAFBigBind_getitem (file : List DsGroup) (index : ℕ) :
    Except String (List (ℚ × ℚ × ℚ)) :=
  if file.length ≤ index then .error "Index out of bounds"
  else
    let group := file.getD index default
    let positions := group.positions.getD 0 []
    if positions.length = 0 then .error "Empty positions encountered"
    else .ok positions

/-- `BigBindSolvDataset.__getitem__`, lines 95-117: the index is wrapped
by `index % self.length`; the frame is random (modelled by the `rng`
argument) when `frame_index` is `None` or exceeds the frame count,
deterministic `index % frame_index` otherwise; no bounds or emptiness
check is performed. -/
def BigBindSolv_getitem (file : List DsGroup) (frame_index : Option ℕ)
    (rng index : ℕ) : Except String (List (ℚ × ℚ × ℚ)) :=
  let index_mod := index % file.length
  let group := file.getD index_mod default
  let frames := group.positions.length
  let frame_idx :=
    match frame_index with
    | none => rng % frames
    | some fi => if frames < fi then rng % frames else index % fi
  .ok (group.positions.getD frame_idx [])

/-- Single-group file whose only frame holds zero atoms. -/
def emptyFrameFile : List DsGroup :=
  [{ charges := [], positions := [[]], atomicNumbers := [], solvForces := [[]],
     lambdaStericsFrames := [0], lambdaElectrostaticsFrames := [0] }]

/-- C9 counterexample: `BigBindSolvDataset.__getitem__` with an
out-of-bounds index (`1`, dataset length `1`) on a frame with zero atoms
raises neither error — it silently returns the empty position list. -/
theorem dataset_checks_counterexample :
    BigBindSolv_getitem emptyFrameFile (some 1) 0 1 = Except.ok [] ∧
      emptyFrameFile.length ≤ 1 ∧
      ((emptyFrameFile.getD 0 default).positions.getD 0 []).length = 0 :=
  ⟨rfl, by decide, rfl⟩

/-- C9 amended: `MAFBigBind.__getitem__` raises the index error iff the
index is at or past the dataset length and the empty-input error iff
frame 0 of the stored positions is empty; `BigBindSolvDataset.__getitem__`
wraps the index modulo the length and always succeeds, with neither
check. -/
theorem dataset_checks_spec (file : List DsGroup) (index rng fi : ℕ)
    (hfi : 0 < fi) (hlen : 0 < file.length) :
    (MAFBigBind_getitem file index = Except.error "Index out of bounds" ↔
        file.length ≤ index) ∧
      (index < file.length →
        (MAFBigBind_getitem file index = Except.error "Empty positions encountered" ↔
          ((file.getD index default).positions.getD 0 []).length = 0)) ∧
      (BigBindSolv_getitem file (some fi) rng index).isOk = true := by
  refine ⟨?_, ?_, rfl⟩
  · unfold MAFBigBind_getitem
    dsimp only
    split
    · simp only [true_iff]
      omega
    · next h =>
      constructor
      · intro hc
        split at hc <;> simp_all
      · omega
  · intro hidx
    unfold MAFBigBind_getitem
    rw [if_neg (by omega)]
    dsimp only
    split
    · next h => exact iff_of_true rfl h
    · next h => exact iff_of_false (by simp) h

/-- Witness for `dataset_checks_spec` on the concrete one-group file with
an empty frame, at `index = 0`, `rng = 0`, `frame_index = 1`. -/
theorem dataset_checks_spec_witness :
    0 < 1 ∧ 0 < emptyFrameFile.length ∧
      ((MAFBigBind_getitem emptyFrameFile 0 = Except.error "Index out of bounds" ↔
          emptyFrameFile.length ≤ 0) ∧
        (0 < emptyFrameFile.length →
          (MAFBigBind_getitem emptyFrameFile 0
              = Except.error "Empty positions encountered" ↔
            ((emptyFrameFile.getD 0 default).positions.getD 0 []).length = 0)) ∧
        (BigBindSolv_getitem emptyFrameFile (some 1) 0 0).isOk = true) :=
  ⟨Nat.one_pos, by decide, dataset_checks_spec emptyFrameFile 0 0 1 Nat.one_pos (by decide)⟩

/- ### C7 : neighbor-graph invariants and `build_edge_idx`

The model builds neighbor graphs with
`torch_geometric.nn.radius_graph(positions, r, batch, False, max_num_neighbors, 'source_to_target', 1)`
(`GNN_Models.py` lines 358-365; the `RadiusGraph` transform of lines 55-57
uses `loop=False` likewise).  The library contract: for each target node,
source candidates within the same batch and within radius `r`, excluding
the node itself (`loop=False`), capped at `max_num_neighbors`.  Distances
are compared through their squares, which is exact for nonnegative radii.

`build_edge_idx` (lines 785-810) fills a preallocated
`2 × (num_reps * num_nodes * (num_nodes-1))` tensor at consecutive
positions `rep*epr + node*(num_nodes-1) + con` (for `con < node`) and
`... + con - 1` (for `con > node`); those positions enumerate `0, 1, 2, …`
in exactly the loop's iteration order, so the column list of the tensor is
the flat list written below with the same `if con < node / elif con > node`
branches. -/

/-- Squared Euclidean distance between two 3-D points. -/
def dSq (a b : ℚ × ℚ × ℚ) : ℚ :=
  (a.1 - b.1) ^ 2 + (a.2.1 - b.2.1) ^ 2 + (a.2.2 - b.2.2) ^ 2

/-- Origin, the `getD` default for position lookups. -/
def z3 : ℚ × ℚ × ℚ := (0, 0, 0)

/-- Neighbor-graph construction (`radius_graph` with `loop=False`): edges
`(source, target)` with distinct endpoints, equal batch ids and squared
distance at most `r2`, the incoming edges of each target capped at the
first `cap` candidates in index order. -/
def radius_graph (pos : List (ℚ × ℚ × ℚ)) (batch : List ℕ) (r2 : ℚ) (cap : ℕ) :
    List (ℕ × ℕ) :=
  (List.range pos.length).flatMap (fun i =>
    (((List.range pos.length).filter (fun j =>
        decide (j ≠ i) && decide (batch.getD j 0 = batch.getD i 0) &&
          decide (dSq (pos.getD j z3) (pos.getD i z3) ≤ r2))).take cap).map
      (fun j => (j, i)))

/-- `build_edge_idx(num_nodes, num_reps)`, lines 785-810: for each replica
and each ordered pair of distinct node indices, one edge between the
replica-shifted nodes. -/
def build_edge_idx (num_nodes num_reps : ℕ) : List (ℕ × ℕ) :=
  (List.range num_reps).flatMap (fun rep =>
    (List.range num_nodes).flatMap (fun node =>
      (List.range num_nodes).flatMap (fun con =>
        if con < node then [(rep * num_nodes + node, rep * num_nodes + con)]
        else if node < con then [(rep * num_nodes + node, rep * num_nodes + con)]
        else [])))

theorem flatMap_if_ne {α : Type} (N node : ℕ) (f : ℕ → α) :
    ((List.range N).flatMap (fun con =>
        if con < node then [f con] else if node < con then [f con] else []))
      = ((List.range N).filter (fun con => con ≠ node)).map f := by
  induction N with
  | zero => rfl
  | succ n ih =>
    rw [List.range_succ, List.flatMap_append, List.filter_append, List.map_append, ih]
    rcases lt_trichotomy n node with h | h | h
    · simp [h, Nat.ne_of_lt h, h.not_lt]
    · simp [h]
    · simp [h, (Nat.ne_of_lt h).symm, h.not_lt]

theorem length_filter_ne_range (N node : ℕ) (h : node < N) :
    ((List.range N).filter (fun con => con ≠ node)).length = N - 1 := by
  induction N with
  | zero => omega
  | succ n ih =>
    rw [List.range_succ, List.filter_append, List.length_append]
    by_cases hn : n = node
    · subst hn
      have hall : (List.range n).filter (fun con => con ≠ n) = List.range n :=
        List.filter_eq_self.mpr (fun a ha => by
          simp only [decide_eq_true_eq]
          exact Nat.ne_of_lt (List.mem_range.mp ha))
      have hsingle : ([n].filter (fun con => con ≠ n)) = [] := by simp
      rw [hall, hsingle]
      simp
    · have hnode : node < n := by omega
      rw [ih hnode]
      simp only [List.filter_cons, List.filter_nil]
      rw [if_pos (by simpa using hn)]
      simp only [List.length_cons, List.length_nil]
      omega

theorem build_edge_idx_mem (N R : ℕ) (e : ℕ × ℕ) :
    e ∈ build_edge_idx N R ↔
      ∃ rep, rep < R ∧ ∃ node, node < N ∧ ∃ con, con < N ∧ node ≠ con ∧
        e = (rep * N + node, rep * N + con) := by
  unfold build_edge_idx
  simp only [List.mem_flatMap, List.mem_range, flatMap_if_ne, List.mem_map,
    List.mem_filter, decide_eq_true_eq]
  constructor
  · rintro ⟨rep, hrep, node, hnode, con, ⟨hconN, hconne⟩, rfl⟩
    exact ⟨rep, hrep, node, hnode, con, hconN, Ne.symm hconne, rfl⟩
  · rintro ⟨rep, hrep, node, hnode, con, hcon, hne, rfl⟩
    exact ⟨rep, hrep, node, hnode, con, ⟨hcon, Ne.symm hne⟩, rfl⟩

/-- C7: every edge of the radius graph joins two distinct atoms with equal
batch ids, and `build_edge_idx(num_nodes, num_reps)` enumerates exactly
the `num_reps * num_nodes * (num_nodes - 1)` ordered pairs of distinct
nodes within each replica — its members are precisely the replica-shifted
distinct pairs, every edge stays inside one replica (equal `/ num_nodes`
quotients), and no edge crosses replicas. -/
theorem graph_edge_invariants (pos : List (ℚ × ℚ × ℚ)) (batch : List ℕ)
    (r2 : ℚ) (cap : ℕ) (N R : ℕ) :
    (∀ e ∈ radius_graph pos batch r2 cap,
        e.1 ≠ e.2 ∧ batch.getD e.1 0 = batch.getD e.2 0) ∧
      (build_edge_idx N R).length = R * (N * (N - 1)) ∧
      (∀ e, e ∈ build_edge_idx N R ↔
        ∃ rep, rep < R ∧ ∃ node, node < N ∧ ∃ con, con < N ∧ node ≠ con ∧
          e = (rep * N + node, rep * N + con)) ∧
      (∀ e ∈ build_edge_idx N R,
        e.1 ≠ e.2 ∧ e.1 / N = e.2 / N ∧ e.1 < R * N ∧ e.2 < R * N) := by
  refine ⟨?_, ?_, build_edge_idx_mem N R, ?_⟩
  · intro e he
    unfold radius_graph at he
    simp only [List.mem_flatMap, List.mem_range, List.mem_map] at he
    obtain ⟨i, _, j, hj, rfl⟩ := he
    have hj2 := List.take_subset cap _ hj
    rw [List.mem_filter] at hj2
    have hp := hj2.2
    simp only [Bool.and_eq_true, decide_eq_true_eq] at hp
    exact ⟨hp.1.1, hp.1.2⟩
  · unfold build_edge_idx
    rw [List.length_flatMap]
    simp only [Function.comp_def]
    have hinner : ∀ rep : ℕ,
        ((List.range N).flatMap (fun node =>
          (List.range N).flatMap (fun con =>
            if con < node then [(rep * N + node, rep * N + con)]
            else if node < con then [(rep * N + node, rep * N + con)]
            else []))).length = N * (N - 1) := by
      intro rep
      rw [List.length_flatMap]
      simp only [Function.comp_def]
      have hmap : ((List.range N).map (fun node =>
          ((List.range N).flatMap (fun con =>
            if con < node then [(rep * N + node, rep * N + con)]
            else if node < con then [(rep * N + node, rep * N + con)]
            else [])).length))
          = (List.range N).map (fun _ => N - 1) := by
        refine List.map_congr_left ?_
        intro node hnode
        rw [flatMap_if_ne, List.length_map,
          length_filter_ne_range N node (List.mem_range.mp hnode)]
      rw [hmap, List.map_const', List.sum_replicate, List.length_range, smul_eq_mul]
    have hmap2 : ((List.range R).map (fun rep =>
        ((List.range N).flatMap (fun node =>
          (List.range N).flatMap (fun con =>
            if con < node then [(rep * N + node, rep * N + con)]
            else if node < con then [(rep * N + node, rep * N + con)]
            else []))).length))
        = (List.range R).map (fun _ => N * (N - 1)) :=
      List.map_congr_left (fun rep _ => hinner rep)
    rw [hmap2, List.map_const', List.sum_replicate, List.length_range, smul_eq_mul]
  · intro e he
    obtain ⟨rep, hrep, node, hnode, con, hcon, hne, rfl⟩ :=
      (build_edge_idx_mem N R e).mp he
    have hq1 : (rep * N + node) / N = rep := by
      rw [Nat.add_comm, Nat.add_mul_div_right _ _ (by omega : 0 < N),
        Nat.div_eq_of_lt hnode]
      omega
    have hq2 : (rep * N + con) / N = rep := by
      rw [Nat.add_comm, Nat.add_mul_div_right _ _ (by omega : 0 < N),
        Nat.div_eq_of_lt hcon]
      omega
    have hb1 : rep * N + node < R * N := by
      calc rep * N + node < rep * N + N := by omega
      _ = (rep + 1) * N := by ring
      _ ≤ R * N := Nat.mul_le_mul_right N (by omega)
    have hb2 : rep * N + con < R * N := by
      calc rep * N + con < rep * N + N := by omega
      _ = (rep + 1) * N := by ring
      _ ≤ R * N := Nat.mul_le_mul_right N (by omega)
    exact ⟨by simp; omega, by rw [hq1, hq2], hb1, hb2⟩

/- ### C5 : batch consistency of the forward evaluation

The full forward (`GNN_Models.py` lines 345-459).  The learned layers
(`GBNeck_interaction`, `GBNeck_energies`, `IN_layer_all_swish_2pass`) live
in `GNN_Layers.py`, which is not among the sources; they are modelled from
the spec (§4.3-§4.5) as local message-passing stages — a per-edge message
from (source state, target state, edge feature) summed at each target atom
and combined with the atom's own state — and enter as arbitrary stage
functions into arbitrary additive message monoids.  Edge features carry
the squared distance; the layers' distance processing (a function of the
actual distance) is an instance via composition with the square root.

Shape semantics embedded faithfully from the code:
* `lambda.view(-1,1).expand(positions.size(0), 1)` (lines 386-387):
  PyTorch `expand` succeeds iff the lambda tensor has `1` entry or exactly
  one entry per atom — otherwise it raises a size-mismatch error;
* `electrostatics_scale[batch]` (lines 399-400): integer-tensor indexing,
  an index error unless every batch id is below the scale length. -/

/-- Edge features of a graph: the (squared) pairwise distance of each
edge's endpoints (`self._distancer(positions[edge_index[0]], positions[edge_index[1]])`,
lines 366-371). -/
def featsOf (pos : List (ℚ × ℚ × ℚ)) (E : List (ℕ × ℕ)) : List ℚ :=
  E.map (fun e => dSq (pos.getD e.1 z3) (pos.getD e.2 z3))

/-- Generic local message-passing stage (spec §4.3/§4.4): every node `i`
combines its own state with the sum of the messages of its incoming
edges. -/
def msgStage {A F M B : Type} [AddCommMonoid M] (dA : A)
    (msg : A → A → F → M) (comb : A → M → B)
    (xs : List A) (E : List (ℕ × ℕ)) (feats : List F) : List B :=
  (List.range xs.length).map (fun i =>
    comb (xs.getD i dA)
      ((((E.zip feats).filter (fun p => decide (p.1.2 = i))).map
        (fun p => msg (xs.getD p.1.1 dA) (xs.getD p.1.2 dA) p.2)).sum))

/-- The model's learned components: lambda feed-forward nets, GB
aggregation (`aggregate_information`), the two interaction layers, the
inter-layer SiLU, and the GB energy evaluator (`calculate_energies`),
modelled from the spec as message/combine pairs. -/
structure GNNNets (M1 M2 M3 M4 H : Type) where
  ffS : ℚ → ℚ
  ffE : ℚ → ℚ
  aggMsg : List ℚ → List ℚ → ℚ → M1
  aggComb : List ℚ → M1 → ℝ × ℝ
  i1msg : (ℝ × ℝ) × List ℚ × ℚ × ℚ → (ℝ × ℝ) × List ℚ × ℚ × ℚ → ℚ → M2
  i1comb : (ℝ × ℝ) × List ℚ × ℚ × ℚ → M2 → H
  siluH : H → H
  i2msg : H → H → ℚ → M3
  i2comb : H → M3 → ℝ × ℝ
  eMsg : ℝ × ℝ → ℝ × ℝ → ℚ → M4
  eComb : ℝ × ℝ → M4 → ℝ
  hDefault : H

/-- Default node state for the correction-network input. -/
def bcnDefault : (ℝ × ℝ) × List ℚ × ℚ × ℚ := ((0, 0), [], 0, 0)

/-- PyTorch `v.view(-1,1).expand(n,1)`: succeeds iff `v` has `n` entries
(no-op) or a single entry (broadcast); any other size raises. -/
def expandTo (v : List ℚ) (n : ℕ) : Except String (List ℚ) :=
  if v.length = n then .ok v
  else if v.length = 1 then .ok (List.replicate n (v.getD 0 0))
  else .error "expand size mismatch"

/-- PyTorch integer-tensor indexing `scale[batch]`: every batch id must be
a valid row index of `scale`. -/
def indexSelect (scale : List ℚ) (batch : List ℕ) : Except String (List ℚ) :=
  if batch.all (fun b => decide (b < scale.length)) then
    .ok (batch.map (fun b => scale.getD b 0))
  else .error "index out of range"

/-- Success-path per-atom energies of the forward evaluation (lines
358-442), with the resolved lambda columns and per-atom scale rows already
fed in: neighbor graphs and distance features, feature concatenation `x`,
GB aggregation `Bc`, the correction network input `Bcn`, the two
interaction layers with the SiLU in between, SA energies from the raw
second channel, the bounded Born-radius correction, the GB energies and
the per-atom combination `elec * l_electrostatics + sa * l_sterics`. -/
noncomputable def forwardEnergiesWith {M1 M2 M3 M4 H : Type} [AddCommMonoid M1] [AddCommMonoid M2]
    [AddCommMonoid M3] [AddCommMonoid M4] (nets : GNNNets M1 M2 M3 M4 H)
    (r2long r2gnn : ℚ) (cap : ℕ) (fraction : ℝ)
    (positions : List (ℚ × ℚ × ℚ)) (params : List (List ℚ)) (batch : List ℕ)
    (lamEcol lamScol l_electrostatics l_sterics : List ℚ) : List ℝ :=
  let edge_index := radius_graph positions batch r2long cap
  let gnn_edge_index := radius_graph positions batch r2gnn cap
  let edge_attributes := featsOf positions edge_index
  let gnn_edge_attributes := featsOf positions gnn_edge_index
  let x := (params.zip (lamEcol.zip lamScol)).map (fun p => p.1 ++ [p.2.1, p.2.2])
  let Bc := msgStage [] nets.aggMsg nets.aggComb x edge_index edge_attributes
  let Bcn0 := (Bc.zip (x.zip (l_sterics.zip l_electrostatics))).map
    (fun p => (p.1, p.2.1, p.2.2.1, p.2.2.2))
  let h1 := msgStage bcnDefault nets.i1msg nets.i1comb Bcn0 gnn_edge_index gnn_edge_attributes
  let h1s := h1.map nets.siluH
  let out2 := msgStage nets.hDefault nets.i2msg nets.i2comb h1s gnn_edge_index gnn_edge_attributes
  let sa_energies := (out2.zip x).map (fun p => saEnergiesMain p.1.2 ((p.2.getD 1 0 : ℚ) : ℝ))
  let BcCorr := (Bc.zip out2).map (fun p => (correctedBorn p.1.1 fraction p.2.1, p.1.2))
  let elec_energies := msgStage ((0 : ℝ), (0 : ℝ)) nets.eMsg nets.eComb BcCorr edge_index edge_attributes
  (elec_energies.zip (l_electrostatics.zip (sa_energies.zip l_sterics))).map
    (fun p => p.1 * (p.2.1 : ℝ) + p.2.2.1 * (p.2.2.2 : ℝ))

/-- The forward evaluation of the main model (lines 345-459), from
positions, per-atom GB parameters, batch ids and the two lambda tensors to
the total energy `energies.sum()`.  The two shape-fallible tensor
operations — the lambda `expand` of lines 386-387 and the batch-indexed
scale broadcast `scale[batch]` of lines 399-400 — surface as `Except`
errors; the pure success-path computation is `forwardEnergiesWith`. -/
noncomputable def gnnForward {M1 M2 M3 M4 H : Type} [AddCommMonoid M1] [AddCommMonoid M2]
    [AddCommMonoid M3] [AddCommMonoid M4] (nets : GNNNets M1 M2 M3 M4 H)
    (r2long r2gnn : ℚ) (cap : ℕ) (fraction : ℝ)
    (positions : List (ℚ × ℚ × ℚ)) (params : List (List ℚ))
    (batch : List ℕ) (lambda_sterics lambda_electrostatics : List ℚ) :
    Except String ℝ := do
  let n := positions.length
  let sterics_scale := lambda_sterics.map (fun l => nets.ffS l * l)
  let electrostatics_scale := lambda_electrostatics.map (fun l => nets.ffE l * l)
  let lamEcol ← expandTo lambda_electrostatics n
  let lamScol ← expandTo lambda_sterics n
  let l_electrostatics ← indexSelect electrostatics_scale batch
  let l_sterics ← indexSelect sterics_scale batch
  return (forwardEnergiesWith nets r2long r2gnn cap fraction positions params batch
    lamEcol lamScol l_electrostatics l_sterics).sum

/-- Per-atom energies of the forward evaluation in the shared-lambda
setting: the same pipeline as `gnnForward` with both lambda inputs equal
to a single value broadcast over every atom, in which case the two
fallible tensor operations always succeed and both per-atom scale columns
are constant. -/
noncomputable def forwardEnergies {M1 M2 M3 M4 H : Type} [AddCommMonoid M1] [AddCommMonoid M2]
    [AddCommMonoid M3] [AddCommMonoid M4] (nets : GNNNets M1 M2 M3 M4 H)
    (r2long r2gnn : ℚ) (cap : ℕ) (fraction : ℝ)
    (positions : List (ℚ × ℚ × ℚ)) (params : List (List ℚ))
    (batch : List ℕ) (lamS lamE : ℚ) : List ℝ :=
  let edge_index := radius_graph positions batch r2long cap
  let gnn_edge_index := radius_graph positions batch r2gnn cap
  let edge_attributes := featsOf positions edge_index
  let gnn_edge_attributes := featsOf positions gnn_edge_index
  let ls : ℚ := nets.ffS lamS * lamS
  let le : ℚ := nets.ffE lamE * lamE
  let x := params.map (fun row => row ++ [lamE, lamS])
  let Bc := msgStage [] nets.aggMsg nets.aggComb x edge_index edge_attributes
  let Bcn0 := (Bc.zip x).map (fun p => (p.1, p.2, ls, le))
  let h1 := msgStage bcnDefault nets.i1msg nets.i1comb Bcn0 gnn_edge_index gnn_edge_attributes
  let h1s := h1.map nets.siluH
  let out2 := msgStage nets.hDefault nets.i2msg nets.i2comb h1s gnn_edge_index gnn_edge_attributes
  let sa_energies := (out2.zip x).map (fun p => saEnergiesMain p.1.2 ((p.2.getD 1 0 : ℚ) : ℝ))
  let BcCorr := (Bc.zip out2).map (fun p => (correctedBorn p.1.1 fraction p.2.1, p.1.2))
  let elec_energies := msgStage ((0 : ℝ), (0 : ℝ)) nets.eMsg nets.eComb BcCorr edge_index edge_attributes
  (elec_energies.zip sa_energies).map (fun p => p.1 * (le : ℝ) + p.2 * (ls : ℝ))

/-- One molecule of a batch: positions and per-atom GB parameter rows. -/
structure Molecule where
  pos : List (ℚ × ℚ × ℚ)
  params : List (List ℚ)

/-- Concatenated positions of a batch of molecules. -/
def batchedPositions (mols : List Molecule) : List (ℚ × ℚ × ℚ) :=
  mols.flatMap (fun m => m.pos)

/-- Concatenated parameter rows of a batch of molecules. -/
def batchedParams (mols : List Molecule) : List (List ℚ) :=
  mols.flatMap (fun m => m.params)

/-- Batch-id vector: every atom of molecule `k` carries id `k`. -/
def batchIds : List Molecule → List ℕ
  | [] => []
  | m :: rest => List.replicate m.pos.length 0 ++ (batchIds rest).map (fun b => b + 1)

/-- Forward call on a single molecule: batch defaults to all-zero ids of
length `len(gnn_params)` (line 381), lambdas broadcast per atom. -/
noncomputable def individualForward {M1 M2 M3 M4 H : Type} [AddCommMonoid M1] [AddCommMonoid M2]
    [AddCommMonoid M3] [AddCommMonoid M4] (nets : GNNNets M1 M2 M3 M4 H)
    (r2long r2gnn : ℚ) (cap : ℕ) (fraction : ℝ) (m : Molecule) (lamS lamE : ℚ) :
    Except String ℝ :=
  gnnForward nets r2long r2gnn cap fraction m.pos m.params
    (List.replicate m.params.length 0)
    (List.replicate m.pos.length lamS) (List.replicate m.pos.length lamE)

theorem msgStage_length {A F M B : Type} [AddCommMonoid M] (dA : A)
    (msg : A → A → F → M) (comb : A → M → B)
    (xs : List A) (E : List (ℕ × ℕ)) (feats : List F) :
    (msgStage dA msg comb xs E feats).length = xs.length := by
  rw [msgStage, List.length_map, List.length_range]

theorem featsOf_length (pos : List (ℚ × ℚ × ℚ)) (E : List (ℕ × ℕ)) :
    (featsOf pos E).length = E.length := by
  rw [featsOf, List.length_map]

theorem radius_graph_wf (pos : List (ℚ × ℚ × ℚ)) (batch : List ℕ) (r2 : ℚ) (cap : ℕ) :
    ∀ e ∈ radius_graph pos batch r2 cap, e.1 < pos.length ∧ e.2 < pos.length := by
  intro e he
  unfold radius_graph at he
  simp only [List.mem_flatMap, List.mem_range, List.mem_map] at he
  obtain ⟨i, hi, j, hj, rfl⟩ := he
  have hj2 := List.take_subset cap _ hj
  rw [List.mem_filter, List.mem_range] at hj2
  exact ⟨hj2.1, hi⟩

theorem zip_replicate_right {α β : Type} (l : List α) (n : ℕ) (c : β) (h : n = l.length) :
    l.zip (List.replicate n c) = l.map (fun a => (a, c)) := by
  subst h
  induction l with
  | nil => rfl
  | cons a t ih => simp only [List.length_cons, List.replicate_succ, List.zip_cons_cons,
      List.map_cons, ih]

theorem zip_replicate_left {α β : Type} (l : List β) (n : ℕ) (c : α) (h : n = l.length) :
    (List.replicate n c).zip l = l.map (fun a => (c, a)) := by
  subst h
  induction l with
  | nil => rfl
  | cons a t ih => simp only [List.length_cons, List.replicate_succ, List.zip_cons_cons,
      List.map_cons, ih]

theorem getD_map_lt {α β : Type} (f : α → β) (l : List α) (i : ℕ) (h : i < l.length)
    (d : β) (d' : α) : (l.map f).getD i d = f (l.getD i d') := by
  rw [List.getD_eq_getElem _ _ (by simpa), List.getElem_map, List.getD_eq_getElem _ _ h]

theorem getD_replicate_lt {α : Type} (n : ℕ) (c d : α) (i : ℕ) (h : i < n) :
    (List.replicate n c).getD i d = c := by
  rw [List.getD_eq_getElem _ _ (by simpa), List.getElem_replicate]

theorem filter_map_comm {α β : Type} (g : α → β) (p : β → Bool) (l : List α) :
    (l.map g).filter p = (l.filter (fun a => p (g a))).map g := by
  induction l with
  | nil => rfl
  | cons a t ih =>
    simp only [List.map_cons, List.filter_cons]
    by_cases h : p (g a) <;> simp [h, ih]

/-- Locality of a message-passing stage: on the disjoint union of two
node sets whose edges stay within their own part, the stage output is the
concatenation of the outputs on the parts. -/
theorem msgStage_append {A F M B : Type} [AddCommMonoid M] (dA : A)
    (msg : A → A → F → M) (comb : A → M → B)
    (xs₁ xs₂ : List A) (E₁ E₂ : List (ℕ × ℕ)) (F₁ F₂ : List F)
    (hE₁ : ∀ e ∈ E₁, e.1 < xs₁.length ∧ e.2 < xs₁.length)
    (hE₂ : ∀ e ∈ E₂, e.1 < xs₂.length ∧ e.2 < xs₂.length)
    (hlen : E₁.length = F₁.length) :
    msgStage dA msg comb (xs₁ ++ xs₂)
        (E₁ ++ E₂.map (fun e => (e.1 + xs₁.length, e.2 + xs₁.length))) (F₁ ++ F₂)
      = msgStage dA msg comb xs₁ E₁ F₁ ++ msgStage dA msg comb xs₂ E₂ F₂ := by
  unfold msgStage
  have hzip : (E₁ ++ E₂.map (fun e => (e.1 + xs₁.length, e.2 + xs₁.length))).zip (F₁ ++ F₂)
      = E₁.zip F₁ ++ (E₂.map (fun e => (e.1 + xs₁.length, e.2 + xs₁.length))).zip F₂ :=
    List.zip_append hlen
  rw [List.length_append, List.range_add, List.map_append, List.map_map]
  congr 1
  · refine List.map_congr_left ?_
    intro i hi
    rw [List.mem_range] at hi
    rw [List.getD_append _ _ _ _ hi, hzip, List.filter_append]
    have hnil : ((E₂.map (fun e => (e.1 + xs₁.length, e.2 + xs₁.length))).zip F₂).filter
        (fun p => decide (p.1.2 = i)) = [] := by
      rw [List.filter_eq_nil_iff]
      intro p hp
      have hp1 := (List.of_mem_zip hp).1
      rw [List.mem_map] at hp1
      obtain ⟨e, _, hpe⟩ := hp1
      simp only [decide_eq_true_eq]
      rw [← hpe]
      omega
    rw [hnil, List.append_nil]
    refine congrArg _ (congrArg _ ?_)
    refine List.map_congr_left ?_
    intro p hp
    have hpz := (List.mem_filter.mp hp).1
    have hp1 := (List.of_mem_zip hpz).1
    rw [List.getD_append _ _ _ _ (hE₁ p.1 hp1).1, List.getD_append _ _ _ _ (hE₁ p.1 hp1).2]
  · refine List.map_congr_left ?_
    intro j hj
    rw [List.mem_range] at hj
    simp only [Function.comp_apply]
    have hgd : (xs₁ ++ xs₂).getD (xs₁.length + j) dA = xs₂.getD j dA := by
      rw [List.getD_append_right _ _ _ _ (by omega)]
      congr 1
      omega
    rw [hgd, hzip, List.filter_append]
    have hnil1 : (E₁.zip F₁).filter (fun p => decide (p.1.2 = xs₁.length + j)) = [] := by
      rw [List.filter_eq_nil_iff]
      intro p hp
      have hp1 := (List.of_mem_zip hp).1
      have h2 := (hE₁ p.1 hp1).2
      simp only [decide_eq_true_eq]
      omega
    rw [hnil1, List.nil_append, List.zip_map_left, filter_map_comm]
    have hfc : ((E₂.zip F₂).filter (fun a =>
        decide ((Prod.map (fun e => (e.1 + xs₁.length, e.2 + xs₁.length)) id a).1.2
          = xs₁.length + j)))
        = (E₂.zip F₂).filter (fun a => decide (a.1.2 = j)) := by
      refine List.filter_congr ?_
      intro a _
      rw [decide_eq_decide]
      simp only [Prod.map_fst]
      omega
    rw [hfc, List.map_map]
    refine congrArg _ (congrArg _ ?_)
    refine List.map_congr_left ?_
    intro p hp
    have hpz := (List.mem_filter.mp hp).1
    have hp1 := (List.of_mem_zip hpz).1
    simp only [Function.comp_apply, Prod.map_fst, Prod.map_snd, id_eq]
    have hg1 : (xs₁ ++ xs₂).getD (p.1.1 + xs₁.length) dA = xs₂.getD p.1.1 dA := by
      rw [List.getD_append_right _ _ _ _ (by omega)]
      congr 1
      omega
    have hg2 : (xs₁ ++ xs₂).getD (p.1.2 + xs₁.length) dA = xs₂.getD p.1.2 dA := by
      rw [List.getD_append_right _ _ _ _ (by omega)]
      congr 1
      omega
    rw [hg1, hg2]

theorem msgStage_append_shift {A F M B : Type} [AddCommMonoid M] (dA : A)
    (msg : A → A → F → M) (comb : A → M → B)
    (xs₁ xs₂ : List A) (E₁ E₂ : List (ℕ × ℕ)) (F₁ F₂ : List F) (n₁ : ℕ)
    (hn : xs₁.length = n₁)
    (hE₁ : ∀ e ∈ E₁, e.1 < n₁ ∧ e.2 < n₁)
    (hE₂ : ∀ e ∈ E₂, e.1 < xs₂.length ∧ e.2 < xs₂.length)
    (hlen : E₁.length = F₁.length) :
    msgStage dA msg comb (xs₁ ++ xs₂)
        (E₁ ++ E₂.map (fun e => (e.1 + n₁, e.2 + n₁))) (F₁ ++ F₂)
      = msgStage dA msg comb xs₁ E₁ F₁ ++ msgStage dA msg comb xs₂ E₂ F₂ := by
  subst hn
  exact msgStage_append dA msg comb xs₁ xs₂ E₁ E₂ F₁ F₂ hE₁ hE₂ hlen

theorem flatMap_congr {α β : Type} {l : List α} {f g : α → List β}
    (h : ∀ a ∈ l, f a = g a) : l.flatMap f = l.flatMap g := by
  induction l with
  | nil => rfl
  | cons a t ih =>
    simp only [List.flatMap_cons]
    rw [h a (List.mem_cons_self a t), ih (fun b hb => h b (List.mem_cons_of_mem a hb))]

theorem getD_mem_of_lt {α : Type} (l : List α) (i : ℕ) (d : α) (h : i < l.length) :
    l.getD i d ∈ l := by
  rw [List.getD_eq_getElem _ _ h]
  exact List.getElem_mem h

theorem featsOf_append (p₁ p₂ : List (ℚ × ℚ × ℚ)) (E₁ E₂ : List (ℕ × ℕ))
    (h₁ : ∀ e ∈ E₁, e.1 < p₁.length ∧ e.2 < p₁.length)
    (h₂ : ∀ e ∈ E₂, e.1 < p₂.length ∧ e.2 < p₂.length) :
    featsOf (p₁ ++ p₂) (E₁ ++ E₂.map (fun e => (e.1 + p₁.length, e.2 + p₁.length)))
      = featsOf p₁ E₁ ++ featsOf p₂ E₂ := by
  unfold featsOf
  rw [List.map_append, List.map_map]
  congr 1
  · refine List.map_congr_left ?_
    intro e he
    rw [List.getD_append _ _ _ _ (h₁ e he).1, List.getD_append _ _ _ _ (h₁ e he).2]
  · refine List.map_congr_left ?_
    intro e he
    simp only [Function.comp_apply]
    have hg1 : (p₁ ++ p₂).getD (e.1 + p₁.length) z3 = p₂.getD e.1 z3 := by
      rw [List.getD_append_right _ _ _ _ (by omega)]
      congr 1
      omega
    have hg2 : (p₁ ++ p₂).getD (e.2 + p₁.length) z3 = p₂.getD e.2 z3 := by
      rw [List.getD_append_right _ _ _ _ (by omega)]
      congr 1
      omega
    rw [hg1, hg2]

/-- A radius graph does not change under an injective relabeling of the
batch ids. -/
theorem radius_graph_batch_map (pos : List (ℚ × ℚ × ℚ)) (b : List ℕ) (f : ℕ → ℕ)
    (hf : ∀ x y, f x = f y → x = y) (hb : b.length = pos.length)
    (r2 : ℚ) (cap : ℕ) :
    radius_graph pos (b.map f) r2 cap = radius_graph pos b r2 cap := by
  unfold radius_graph
  refine flatMap_congr ?_
  intro i hi
  rw [List.mem_range] at hi
  have hgi : (b.map f).getD i 0 = f (b.getD i 0) := getD_map_lt f b i (by omega) 0 0
  refine congrArg _ (congrArg _ ?_)
  refine List.filter_congr ?_
  intro j hj
  rw [List.mem_range] at hj
  have hgj : (b.map f).getD j 0 = f (b.getD j 0) := getD_map_lt f b j (by omega) 0 0
  have hdec : decide ((b.map f).getD j 0 = (b.map f).getD i 0)
      = decide (b.getD j 0 = b.getD i 0) := by
    rw [hgi, hgj, decide_eq_decide]
    exact ⟨fun h => hf _ _ h, fun h => congrArg f h⟩
  rw [hdec]

/-- Locality of the radius-graph construction: with disjoint batch ids on
the two parts, the graph of the concatenation is the graph of the first
part together with the index-shifted graph of the second part. -/
theorem radius_graph_append (p₁ p₂ : List (ℚ × ℚ × ℚ)) (b₁ b₂ : List ℕ) (r2 : ℚ) (cap : ℕ)
    (hb₁ : b₁.length = p₁.length) (hb₂ : b₂.length = p₂.length)
    (hdisj : ∀ x ∈ b₁, ∀ y ∈ b₂, x ≠ y) :
    radius_graph (p₁ ++ p₂) (b₁ ++ b₂) r2 cap
      = radius_graph p₁ b₁ r2 cap
        ++ (radius_graph p₂ b₂ r2 cap).map
            (fun e => (e.1 + p₁.length, e.2 + p₁.length)) := by
  have hbmem₁ : ∀ i, i < p₁.length → (b₁ ++ b₂).getD i 0 = b₁.getD i 0 ∧ b₁.getD i 0 ∈ b₁ := by
    intro i hi
    exact ⟨List.getD_append _ _ _ _ (by omega), getD_mem_of_lt _ _ _ (by omega)⟩
  have hbmem₂ : ∀ k, k < p₂.length →
      (b₁ ++ b₂).getD (p₁.length + k) 0 = b₂.getD k 0 ∧ b₂.getD k 0 ∈ b₂ := by
    intro k hk
    constructor
    · rw [List.getD_append_right _ _ _ _ (by omega)]
      congr 1
      omega
    · exact getD_mem_of_lt _ _ _ (by omega)
  have hpos₁ : ∀ i, i < p₁.length → (p₁ ++ p₂).getD i z3 = p₁.getD i z3 :=
    fun i hi => List.getD_append _ _ _ _ hi
  have hpos₂ : ∀ k, k < p₂.length → (p₁ ++ p₂).getD (p₁.length + k) z3 = p₂.getD k z3 := by
    intro k hk
    rw [List.getD_append_right _ _ _ _ (by omega)]
    congr 1
    omega
  unfold radius_graph
  rw [List.length_append, List.range_add, List.flatMap_append]
  congr 1
  · refine flatMap_congr ?_
    intro i hi
    rw [List.mem_range] at hi
    rw [List.filter_append]
    have hnil : ((List.range p₂.length).map (fun x => p₁.length + x)).filter
        (fun j => decide (j ≠ i) && decide ((b₁ ++ b₂).getD j 0 = (b₁ ++ b₂).getD i 0) &&
          decide (dSq ((p₁ ++ p₂).getD j z3) ((p₁ ++ p₂).getD i z3) ≤ r2)) = [] := by
      rw [List.filter_eq_nil_iff]
      intro a ha
      rw [List.mem_map] at ha
      obtain ⟨k, hk, rfl⟩ := ha
      rw [List.mem_range] at hk
      have h1 := (hbmem₂ k hk).1
      have h2 := (hbmem₂ k hk).2
      have h3 := (hbmem₁ i hi).1
      have h4 := (hbmem₁ i hi).2
      have hne : (b₁ ++ b₂).getD (p₁.length + k) 0 ≠ (b₁ ++ b₂).getD i 0 := by
        rw [h1, h3]
        exact (hdisj _ h4 _ h2).symm
      intro hcontra
      rw [Bool.and_eq_true, Bool.and_eq_true] at hcontra
      exact hne (of_decide_eq_true hcontra.1.2)
    rw [hnil, List.append_nil]
    have hfeq : (List.range p₁.length).filter
        (fun j => decide (j ≠ i) && decide ((b₁ ++ b₂).getD j 0 = (b₁ ++ b₂).getD i 0) &&
          decide (dSq ((p₁ ++ p₂).getD j z3) ((p₁ ++ p₂).getD i z3) ≤ r2))
        = (List.range p₁.length).filter
        (fun j => decide (j ≠ i) && decide (b₁.getD j 0 = b₁.getD i 0) &&
          decide (dSq (p₁.getD j z3) (p₁.getD i z3) ≤ r2)) := by
      refine List.filter_congr ?_
      intro j hj
      rw [List.mem_range] at hj
      rw [(hbmem₁ j hj).1, (hbmem₁ i hi).1, hpos₁ j hj, hpos₁ i hi]
    rw [hfeq]
  · rw [List.flatMap_map, List.map_flatMap]
    refine flatMap_congr ?_
    intro k hk
    rw [List.mem_range] at hk
    rw [List.filter_append]
    have hnil : ((List.range p₁.length)).filter
        (fun j => decide (j ≠ p₁.length + k) &&
          decide ((b₁ ++ b₂).getD j 0 = (b₁ ++ b₂).getD (p₁.length + k) 0) &&
          decide (dSq ((p₁ ++ p₂).getD j z3) ((p₁ ++ p₂).getD (p₁.length + k) z3) ≤ r2)) = [] := by
      rw [List.filter_eq_nil_iff]
      intro j hj
      rw [List.mem_range] at hj
      have hne : (b₁ ++ b₂).getD j 0 ≠ (b₁ ++ b₂).getD (p₁.length + k) 0 := by
        rw [(hbmem₁ j hj).1, (hbmem₂ k hk).1]
        exact hdisj _ (hbmem₁ j hj).2 _ (hbmem₂ k hk).2
      intro hcontra
      rw [Bool.and_eq_true, Bool.and_eq_true] at hcontra
      exact hne (of_decide_eq_true hcontra.1.2)
    rw [hnil, List.nil_append, filter_map_comm]
    have hfeq : (List.range p₂.length).filter
        (fun l => decide (p₁.length + l ≠ p₁.length + k) &&
          decide ((b₁ ++ b₂).getD (p₁.length + l) 0 = (b₁ ++ b₂).getD (p₁.length + k) 0) &&
          decide (dSq ((p₁ ++ p₂).getD (p₁.length + l) z3)
            ((p₁ ++ p₂).getD (p₁.length + k) z3) ≤ r2))
        = (List.range p₂.length).filter
        (fun l => decide (l ≠ k) && decide (b₂.getD l 0 = b₂.getD k 0) &&
          decide (dSq (p₂.getD l z3) (p₂.getD k z3) ≤ r2)) := by
      refine List.filter_congr ?_
      intro l hl
      rw [List.mem_range] at hl
      rw [(hbmem₂ l hl).1, (hbmem₂ k hk).1, hpos₂ l hl, hpos₂ k hk]
      have hd : decide (p₁.length + l ≠ p₁.length + k) = decide (l ≠ k) := by
        rw [decide_eq_decide]
        omega
      rw [hd]
    rw [hfeq, ← List.map_take, List.map_map, List.map_map]
    refine List.map_congr_left ?_
    intro j _
    simp only [Function.comp_apply]
    rw [Nat.add_comm j p₁.length, Nat.add_comm k p₁.length]

/-- With a shared lambda value broadcast over every atom, the success-path
pipeline collapses to the constant-lambda per-atom energies
`forwardEnergies`. -/
theorem forwardEnergiesWith_shared {M1 M2 M3 M4 H : Type} [AddCommMonoid M1] [AddCommMonoid M2]
    [AddCommMonoid M3] [AddCommMonoid M4] (nets : GNNNets M1 M2 M3 M4 H)
    (r2long r2gnn : ℚ) (cap : ℕ) (fraction : ℝ)
    (pos : List (ℚ × ℚ × ℚ)) (params : List (List ℚ)) (batch : List ℕ)
    (lamS lamE : ℚ) (hp : params.length = pos.length) :
    forwardEnergiesWith nets r2long r2gnn cap fraction pos params batch
        (List.replicate pos.length lamE) (List.replicate pos.length lamS)
        (List.replicate pos.length (nets.ffE lamE * lamE))
        (List.replicate pos.length (nets.ffS lamS * lamS))
      = forwardEnergies nets r2long r2gnn cap fraction pos params batch lamS lamE := by
  unfold forwardEnergiesWith forwardEnergies
  dsimp only
  have hx : (params.zip ((List.replicate pos.length lamE).zip
        (List.replicate pos.length lamS))).map (fun p => p.1 ++ [p.2.1, p.2.2])
      = params.map (fun row => row ++ [lamE, lamS]) := by
    rw [zip_replicate_right (List.replicate pos.length lamE) pos.length lamS
        (List.length_replicate _ _).symm, List.map_replicate,
      zip_replicate_right params pos.length (lamE, lamS) hp.symm, List.map_map]
    rfl
  rw [hx]
  have hxlen : (params.map (fun row => row ++ [lamE, lamS])).length = pos.length := by
    rw [List.length_map, hp]
  have hBclen : (msgStage [] nets.aggMsg nets.aggComb
      (params.map (fun row => row ++ [lamE, lamS]))
      (radius_graph pos batch r2long cap)
      (featsOf pos (radius_graph pos batch r2long cap))).length = pos.length := by
    rw [msgStage_length, hxlen]
  have hBcn0 : ((msgStage [] nets.aggMsg nets.aggComb
        (params.map (fun row => row ++ [lamE, lamS]))
        (radius_graph pos batch r2long cap)
        (featsOf pos (radius_graph pos batch r2long cap))).zip
          ((params.map (fun row => row ++ [lamE, lamS])).zip
            ((List.replicate pos.length (nets.ffS lamS * lamS)).zip
              (List.replicate pos.length (nets.ffE lamE * lamE))))).map
        (fun p => (p.1, p.2.1, p.2.2.1, p.2.2.2))
      = ((msgStage [] nets.aggMsg nets.aggComb
        (params.map (fun row => row ++ [lamE, lamS]))
        (radius_graph pos batch r2long cap)
        (featsOf pos (radius_graph pos batch r2long cap))).zip
          (params.map (fun row => row ++ [lamE, lamS]))).map
        (fun p => (p.1, p.2, nets.ffS lamS * lamS, nets.ffE lamE * lamE)) := by
    rw [zip_replicate_right (List.replicate pos.length (nets.ffS lamS * lamS)) pos.length
        (nets.ffE lamE * lamE) (List.length_replicate _ _).symm, List.map_replicate,
      zip_replicate_right (params.map (fun row => row ++ [lamE, lamS])) pos.length
        (nets.ffS lamS * lamS, nets.ffE lamE * lamE) hxlen.symm,
      List.zip_map_right, List.map_map]
    rfl
  rw [hBcn0]
  set xc := params.map (fun row => row ++ [lamE, lamS]) with hxc
  set Eg := radius_graph pos batch r2gnn cap with hEg
  set El := radius_graph pos batch r2long cap with hEl
  set Bc := msgStage [] nets.aggMsg nets.aggComb xc El (featsOf pos El) with hBc
  set Bcn0 := (Bc.zip xc).map
    (fun p => (p.1, p.2, nets.ffS lamS * lamS, nets.ffE lamE * lamE)) with hBcn
  set out2 := msgStage nets.hDefault nets.i2msg nets.i2comb
    ((msgStage bcnDefault nets.i1msg nets.i1comb Bcn0 Eg (featsOf pos Eg)).map nets.siluH)
    Eg (featsOf pos Eg) with hout2
  set sa := (out2.zip xc).map
    (fun p => saEnergiesMain p.1.2 ((p.2.getD 1 0 : ℚ) : ℝ)) with hsa
  set elec := msgStage ((0 : ℝ), (0 : ℝ)) nets.eMsg nets.eComb
    ((Bc.zip out2).map (fun p => (correctedBorn p.1.1 fraction p.2.1, p.1.2)))
    El (featsOf pos El) with helec
  have hout2len : out2.length = pos.length := by
    rw [hout2, msgStage_length, List.length_map, msgStage_length, hBcn, List.length_map,
      List.length_zip, hBclen, hxlen]
    exact min_self _
  have hsalen : sa.length = pos.length := by
    rw [hsa, List.length_map, List.length_zip, hout2len, hxlen]
    exact min_self _
  rw [zip_replicate_right sa pos.length (nets.ffS lamS * lamS) hsalen.symm,
    zip_replicate_left (sa.map (fun a => (a, nets.ffS lamS * lamS))) pos.length
      (nets.ffE lamE * lamE) (by rw [List.length_map, hsalen]),
    List.map_map, List.zip_map_right, List.map_map]
  rfl

/-- Locality of the whole success-path pipeline: on two parts with
disjoint batch ids the per-atom energies of the concatenation are the
concatenation of the per-atom energies of the parts. -/
theorem forwardEnergies_append {M1 M2 M3 M4 H : Type} [AddCommMonoid M1] [AddCommMonoid M2]
    [AddCommMonoid M3] [AddCommMonoid M4] (nets : GNNNets M1 M2 M3 M4 H)
    (r2long r2gnn : ℚ) (cap : ℕ) (fraction : ℝ)
    (p₁ p₂ : List (ℚ × ℚ × ℚ)) (params₁ params₂ : List (List ℚ)) (b₁ b₂ : List ℕ)
    (lamS lamE : ℚ)
    (hp₁ : params₁.length = p₁.length) (hb₁ : b₁.length = p₁.length)
    (hp₂ : params₂.length = p₂.length) (hb₂ : b₂.length = p₂.length)
    (hdisj : ∀ x ∈ b₁, ∀ y ∈ b₂, x ≠ y) :
    forwardEnergies nets r2long r2gnn cap fraction (p₁ ++ p₂) (params₁ ++ params₂)
        (b₁ ++ b₂) lamS lamE
      = forwardEnergies nets r2long r2gnn cap fraction p₁ params₁ b₁ lamS lamE
        ++ forwardEnergies nets r2long r2gnn cap fraction p₂ params₂ b₂ lamS lamE := by
  unfold forwardEnergies
  dsimp only
  rw [radius_graph_append p₁ p₂ b₁ b₂ r2long cap hb₁ hb₂ hdisj,
    radius_graph_append p₁ p₂ b₁ b₂ r2gnn cap hb₁ hb₂ hdisj,
    featsOf_append p₁ p₂ _ _ (radius_graph_wf p₁ b₁ r2long cap) (radius_graph_wf p₂ b₂ r2long cap),
    featsOf_append p₁ p₂ _ _ (radius_graph_wf p₁ b₁ r2gnn cap) (radius_graph_wf p₂ b₂ r2gnn cap),
    List.map_append]
  set El₁ := radius_graph p₁ b₁ r2long cap with hEl₁
  set El₂ := radius_graph p₂ b₂ r2long cap with hEl₂
  set Eg₁ := radius_graph p₁ b₁ r2gnn cap with hEg₁
  set Eg₂ := radius_graph p₂ b₂ r2gnn cap with hEg₂
  set x₁ := params₁.map (fun row => row ++ [lamE, lamS]) with hx₁
  set x₂ := params₂.map (fun row => row ++ [lamE, lamS]) with hx₂
  have hx₁len : x₁.length = p₁.length := by rw [hx₁, List.length_map, hp₁]
  have hx₂len : x₂.length = p₂.length := by rw [hx₂, List.length_map, hp₂]
  have hwfl₁ : ∀ e ∈ El₁, e.1 < p₁.length ∧ e.2 < p₁.length := radius_graph_wf p₁ b₁ r2long cap
  have hwfl₂ : ∀ e ∈ El₂, e.1 < p₂.length ∧ e.2 < p₂.length := radius_graph_wf p₂ b₂ r2long cap
  have hwfg₁ : ∀ e ∈ Eg₁, e.1 < p₁.length ∧ e.2 < p₁.length := radius_graph_wf p₁ b₁ r2gnn cap
  have hwfg₂ : ∀ e ∈ Eg₂, e.1 < p₂.length ∧ e.2 < p₂.length := radius_graph_wf p₂ b₂ r2gnn cap
  have hwfl₂x : ∀ e ∈ El₂, e.1 < x₂.length ∧ e.2 < x₂.length := by
    intro e he
    rw [hx₂len]
    exact hwfl₂ e he
  rw [msgStage_append_shift [] nets.aggMsg nets.aggComb x₁ x₂ El₁ El₂
      (featsOf p₁ El₁) (featsOf p₂ El₂) p₁.length hx₁len hwfl₁ hwfl₂x
      (featsOf_length p₁ El₁).symm]
  set Bc₁ := msgStage [] nets.aggMsg nets.aggComb x₁ El₁ (featsOf p₁ El₁) with hBc₁
  set Bc₂ := msgStage [] nets.aggMsg nets.aggComb x₂ El₂ (featsOf p₂ El₂) with hBc₂
  have hBc₁len : Bc₁.length = p₁.length := by rw [hBc₁, msgStage_length, hx₁len]
  have hBc₂len : Bc₂.length = p₂.length := by rw [hBc₂, msgStage_length, hx₂len]
  rw [List.zip_append (by rw [hBc₁len, hx₁len]), List.map_append]
  set Bcn₁ := (Bc₁.zip x₁).map
    (fun p => (p.1, p.2, nets.ffS lamS * lamS, nets.ffE lamE * lamE)) with hBcn₁
  set Bcn₂ := (Bc₂.zip x₂).map
    (fun p => (p.1, p.2, nets.ffS lamS * lamS, nets.ffE lamE * lamE)) with hBcn₂
  have hBcn₁len : Bcn₁.length = p₁.length := by
    rw [hBcn₁, List.length_map, List.length_zip, hBc₁len, hx₁len]
    exact min_self _
  have hBcn₂len : Bcn₂.length = p₂.length := by
    rw [hBcn₂, List.length_map, List.length_zip, hBc₂len, hx₂len]
    exact min_self _
  have hwfg₂b : ∀ e ∈ Eg₂, e.1 < Bcn₂.length ∧ e.2 < Bcn₂.length := by
    intro e he
    rw [hBcn₂len]
    exact hwfg₂ e he
  rw [msgStage_append_shift bcnDefault nets.i1msg nets.i1comb Bcn₁ Bcn₂ Eg₁ Eg₂
      (featsOf p₁ Eg₁) (featsOf p₂ Eg₂) p₁.length hBcn₁len hwfg₁ hwfg₂b
      (featsOf_length p₁ Eg₁).symm, List.map_append]
  set h₁s := (msgStage bcnDefault nets.i1msg nets.i1comb Bcn₁ Eg₁ (featsOf p₁ Eg₁)).map
    nets.siluH with hh₁s
  set h₂s := (msgStage bcnDefault nets.i1msg nets.i1comb Bcn₂ Eg₂ (featsOf p₂ Eg₂)).map
    nets.siluH with hh₂s
  have hh₁len : h₁s.length = p₁.length := by
    rw [hh₁s, List.length_map, msgStage_length, hBcn₁len]
  have hh₂len : h₂s.length = p₂.length := by
    rw [hh₂s, List.length_map, msgStage_length, hBcn₂len]
  have hwfg₂h : ∀ e ∈ Eg₂, e.1 < h₂s.length ∧ e.2 < h₂s.length := by
    intro e he
    rw [hh₂len]
    exact hwfg₂ e he
  rw [msgStage_append_shift nets.hDefault nets.i2msg nets.i2comb h₁s h₂s Eg₁ Eg₂
      (featsOf p₁ Eg₁) (featsOf p₂ Eg₂) p₁.length hh₁len hwfg₁ hwfg₂h
      (featsOf_length p₁ Eg₁).symm]
  set out₁ := msgStage nets.hDefault nets.i2msg nets.i2comb h₁s Eg₁ (featsOf p₁ Eg₁) with hout₁
  set out₂ := msgStage nets.hDefault nets.i2msg nets.i2comb h₂s Eg₂ (featsOf p₂ Eg₂) with hout₂
  have hout₁len : out₁.length = p₁.length := by rw [hout₁, msgStage_length, hh₁len]
  have hout₂len : out₂.length = p₂.length := by rw [hout₂, msgStage_length, hh₂len]
  rw [List.zip_append (by rw [hBc₁len, hout₁len]), List.map_append,
    List.zip_append (by rw [hout₁len, hx₁len]), List.map_append]
  set sa₁ := (out₁.zip x₁).map (fun p => saEnergiesMain p.1.2 ((p.2.getD 1 0 : ℚ) : ℝ)) with hsa₁
  set sa₂ := (out₂.zip x₂).map (fun p => saEnergiesMain p.1.2 ((p.2.getD 1 0 : ℚ) : ℝ)) with hsa₂
  set BcC₁ := (Bc₁.zip out₁).map
    (fun p => (correctedBorn p.1.1 fraction p.2.1, p.1.2)) with hBcC₁
  set BcC₂ := (Bc₂.zip out₂).map
    (fun p => (correctedBorn p.1.1 fraction p.2.1, p.1.2)) with hBcC₂
  have hBcC₁len : BcC₁.length = p₁.length := by
    rw [hBcC₁, List.length_map, List.length_zip, hBc₁len, hout₁len]
    exact min_self _
  have hBcC₂len : BcC₂.length = p₂.length := by
    rw [hBcC₂, List.length_map, List.length_zip, hBc₂len, hout₂len]
    exact min_self _
  have hwfl₂c : ∀ e ∈ El₂, e.1 < BcC₂.length ∧ e.2 < BcC₂.length := by
    intro e he
    rw [hBcC₂len]
    exact hwfl₂ e he
  rw [msgStage_append_shift ((0 : ℝ), (0 : ℝ)) nets.eMsg nets.eComb BcC₁ BcC₂ El₁ El₂
      (featsOf p₁ El₁) (featsOf p₂ El₂) p₁.length hBcC₁len hwfl₁ hwfl₂c
      (featsOf_length p₁ El₁).symm]
  have hsa₁len : sa₁.length = p₁.length := by
    rw [hsa₁, List.length_map, List.length_zip, hout₁len, hx₁len]
    exact min_self _
  have helec₁len : (msgStage ((0 : ℝ), (0 : ℝ)) nets.eMsg nets.eComb BcC₁ El₁
      (featsOf p₁ El₁)).length = p₁.length := by
    rw [msgStage_length, hBcC₁len]
  rw [List.zip_append (by rw [helec₁len, hsa₁len]), List.map_append]

/-- With every batch id a valid atom index and a shared lambda value
broadcast over the atoms, the forward evaluation succeeds and returns the
sum of the constant-lambda per-atom energies. -/
theorem gnnForward_ok {M1 M2 M3 M4 H : Type} [AddCommMonoid M1] [AddCommMonoid M2]
    [AddCommMonoid M3] [AddCommMonoid M4] (nets : GNNNets M1 M2 M3 M4 H)
    (r2long r2gnn : ℚ) (cap : ℕ) (fraction : ℝ)
    (pos : List (ℚ × ℚ × ℚ)) (params : List (List ℚ)) (batch : List ℕ)
    (lamS lamE : ℚ) (hp : params.length = pos.length)
    (hb : batch.length = pos.length) (hlt : ∀ b ∈ batch, b < pos.length) :
    gnnForward nets r2long r2gnn cap fraction pos params batch
        (List.replicate pos.length lamS) (List.replicate pos.length lamE)
      = Except.ok
          (forwardEnergies nets r2long r2gnn cap fraction pos params batch lamS lamE).sum := by
  have hexpE : expandTo (List.replicate pos.length lamE) pos.length
      = Except.ok (List.replicate pos.length lamE) := by
    unfold expandTo
    rw [List.length_replicate, if_pos rfl]
  have hexpS : expandTo (List.replicate pos.length lamS) pos.length
      = Except.ok (List.replicate pos.length lamS) := by
    unfold expandTo
    rw [List.length_replicate, if_pos rfl]
  have hsel : ∀ c : ℚ, indexSelect (List.replicate pos.length c) batch
      = Except.ok (List.replicate pos.length c) := by
    intro c
    unfold indexSelect
    rw [if_pos]
    · congr 1
      have h1 : batch.map (fun b => (List.replicate pos.length c).getD b 0)
          = batch.map (fun _ => c) :=
        List.map_congr_left (fun b hbm => getD_replicate_lt _ _ _ _ (hlt b hbm))
      rw [h1, List.map_const', hb]
    · rw [List.all_eq_true]
      intro b hbm
      rw [List.length_replicate]
      exact decide_eq_true (hlt b hbm)
  have hbind : ∀ {α β : Type} (a : α) (f : α → Except String β),
      (Except.ok a : Except String α) >>= f = f a := fun a f => rfl
  unfold gnnForward
  simp only [List.map_replicate, hexpE, hexpS, hsel, hbind]
  rw [forwardEnergiesWith_shared nets r2long r2gnn cap fraction pos params batch lamS lamE hp]
  rfl

theorem forwardEnergies_batch_congr {M1 M2 M3 M4 H : Type} [AddCommMonoid M1] [AddCommMonoid M2]
    [AddCommMonoid M3] [AddCommMonoid M4] (nets : GNNNets M1 M2 M3 M4 H)
    (r2long r2gnn : ℚ) (cap : ℕ) (fraction : ℝ)
    (pos : List (ℚ × ℚ × ℚ)) (params : List (List ℚ)) (b : List ℕ) (f : ℕ → ℕ)
    (hf : ∀ x y, f x = f y → x = y) (hb : b.length = pos.length) (lamS lamE : ℚ) :
    forwardEnergies nets r2long r2gnn cap fraction pos params (b.map f) lamS lamE
      = forwardEnergies nets r2long r2gnn cap fraction pos params b lamS lamE := by
  unfold forwardEnergies
  rw [radius_graph_batch_map pos b f hf hb r2long cap,
    radius_graph_batch_map pos b f hf hb r2gnn cap]

theorem batchedPositions_cons (m : Molecule) (rest : List Molecule) :
    batchedPositions (m :: rest) = m.pos ++ batchedPositions rest := by
  unfold batchedPositions
  rw [List.flatMap_cons]

theorem batchedParams_cons (m : Molecule) (rest : List Molecule) :
    batchedParams (m :: rest) = m.params ++ batchedParams rest := by
  unfold batchedParams
  rw [List.flatMap_cons]

theorem batchIds_length (mols : List Molecule) :
    (batchIds mols).length = (batchedPositions mols).length := by
  induction mols with
  | nil => rfl
  | cons m rest ih =>
    rw [batchIds, batchedPositions_cons, List.length_append, List.length_append,
      List.length_replicate, List.length_map, ih]

theorem batchIds_lt (mols : List Molecule) : ∀ b ∈ batchIds mols, b < mols.length := by
  induction mols with
  | nil =>
    intro b hb
    simp [batchIds] at hb
  | cons m rest ih =>
    intro b hb
    rw [batchIds, List.mem_append] at hb
    rcases hb with h | h
    · rw [List.eq_of_mem_replicate h, List.length_cons]
      omega
    · rw [List.mem_map] at h
      obtain ⟨c, hc, rfl⟩ := h
      have := ih c hc
      rw [List.length_cons]
      omega

theorem batchedParams_length (mols : List Molecule)
    (hw : ∀ m ∈ mols, m.params.length = m.pos.length) :
    (batchedParams mols).length = (batchedPositions mols).length := by
  induction mols with
  | nil => rfl
  | cons m rest ih =>
    rw [batchedParams_cons, batchedPositions_cons, List.length_append, List.length_append,
      hw m (List.mem_cons_self m rest), ih (fun x hx => hw x (List.mem_cons_of_mem m hx))]

theorem mols_length_le (mols : List Molecule) (hw : ∀ m ∈ mols, m.pos.length ≠ 0) :
    mols.length ≤ (batchedPositions mols).length := by
  induction mols with
  | nil => exact le_refl 0
  | cons m rest ih =>
    rw [batchedPositions_cons, List.length_append, List.length_cons]
    have h1 : 1 ≤ m.pos.length := Nat.pos_of_ne_zero (hw m (List.mem_cons_self m rest))
    have h2 := ih (fun x hx => hw x (List.mem_cons_of_mem m hx))
    omega

/-- The success-path per-atom energies of a batch of molecules are the
concatenation of each molecule's per-atom energies evaluated on its own. -/
theorem forwardEnergies_batched {M1 M2 M3 M4 H : Type} [AddCommMonoid M1] [AddCommMonoid M2]
    [AddCommMonoid M3] [AddCommMonoid M4] (nets : GNNNets M1 M2 M3 M4 H)
    (r2long r2gnn : ℚ) (cap : ℕ) (fraction : ℝ) (mols : List Molecule) (lamS lamE : ℚ)
    (hw : ∀ m ∈ mols, m.params.length = m.pos.length) :
    forwardEnergies nets r2long r2gnn cap fraction (batchedPositions mols)
        (batchedParams mols) (batchIds mols) lamS lamE
      = (mols.map (fun m => forwardEnergies nets r2long r2gnn cap fraction m.pos m.params
          (List.replicate m.pos.length 0) lamS lamE)).flatten := by
  induction mols with
  | nil => rfl
  | cons m rest ih =>
    rw [batchedPositions_cons, batchedParams_cons, batchIds,
      forwardEnergies_append nets r2long r2gnn cap fraction m.pos (batchedPositions rest)
        m.params (batchedParams rest) (List.replicate m.pos.length 0)
        ((batchIds rest).map (fun b => b + 1)) lamS lamE
        (hw m (List.mem_cons_self m rest)) (List.length_replicate _ _)
        (batchedParams_length rest (fun x hx => hw x (List.mem_cons_of_mem m hx)))
        (by rw [List.length_map, batchIds_length])
        (by
          intro x hx y hy
          rw [List.eq_of_mem_replicate hx]
          rw [List.mem_map] at hy
          obtain ⟨c, _, rfl⟩ := hy
          omega),
      forwardEnergies_batch_congr nets r2long r2gnn cap fraction (batchedPositions rest)
        (batchedParams rest) (batchIds rest) (fun b => b + 1)
        (fun x y h => Nat.add_right_cancel h)
        (batchIds_length rest) lamS lamE,
      ih (fun x hx => hw x (List.mem_cons_of_mem m hx)), List.map_cons, List.flatten_cons]

/-- C5 amended, positive part: when the two lambda inputs are a single
shared value broadcast over every atom (the only shape that satisfies both
the `expand` of lines 386-387 and the batch-indexed scale broadcast of
lines 399-400 for a multi-molecule batch of multi-atom molecules),
evaluating the molecules in one batched call with distinguishing batch ids
succeeds and returns exactly the sum of the energies of the individual
calls — for any weights of the learned stages. -/
theorem batch_consistency_shared_lambda {M1 M2 M3 M4 H : Type} [AddCommMonoid M1]
    [AddCommMonoid M2] [AddCommMonoid M3] [AddCommMonoid M4] (nets : GNNNets M1 M2 M3 M4 H)
    (r2long r2gnn : ℚ) (cap : ℕ) (fraction : ℝ) (mols : List Molecule) (lamS lamE : ℚ)
    (hw : ∀ m ∈ mols, m.params.length = m.pos.length ∧ m.pos.length ≠ 0) :
    (∀ m ∈ mols, individualForward nets r2long r2gnn cap fraction m lamS lamE
        = Except.ok (forwardEnergies nets r2long r2gnn cap fraction m.pos m.params
            (List.replicate m.pos.length 0) lamS lamE).sum) ∧
      gnnForward nets r2long r2gnn cap fraction (batchedPositions mols) (batchedParams mols)
          (batchIds mols)
          (List.replicate (batchedPositions mols).length lamS)
          (List.replicate (batchedPositions mols).length lamE)
        = Except.ok ((mols.map (fun m =>
            (individualForward nets r2long r2gnn cap fraction m lamS lamE).toOption.getD 0)).sum) := by
  have hind : ∀ m ∈ mols, individualForward nets r2long r2gnn cap fraction m lamS lamE
      = Except.ok (forwardEnergies nets r2long r2gnn cap fraction m.pos m.params
          (List.replicate m.pos.length 0) lamS lamE).sum := by
    intro m hm
    unfold individualForward
    rw [(hw m hm).1]
    exact gnnForward_ok nets r2long r2gnn cap fraction m.pos m.params
      (List.replicate m.pos.length 0) lamS lamE (hw m hm).1 (List.length_replicate _ _)
      (fun b hb => by
        rw [List.eq_of_mem_replicate hb]
        exact Nat.pos_of_ne_zero (hw m hm).2)
  refine ⟨hind, ?_⟩
  have hplen : (batchedParams mols).length = (batchedPositions mols).length :=
    batchedParams_length mols (fun m hm => (hw m hm).1)
  have hblen : (batchIds mols).length = (batchedPositions mols).length := batchIds_length mols
  have hlt : ∀ b ∈ batchIds mols, b < (batchedPositions mols).length :=
    fun b hb => lt_of_lt_of_le (batchIds_lt mols b hb)
      (mols_length_le mols (fun m hm => (hw m hm).2))
  rw [gnnForward_ok nets r2long r2gnn cap fraction (batchedPositions mols)
      (batchedParams mols) (batchIds mols) lamS lamE hplen hblen hlt,
    forwardEnergies_batched nets r2long r2gnn cap fraction mols lamS lamE
      (fun m hm => (hw m hm).1)]
  congr 1
  rw [List.sum_flatten, List.map_map]
  refine congrArg List.sum (List.map_congr_left ?_)
  intro m hm
  simp only [Function.comp_apply]
  rw [hind m hm]
  rfl

/-- Concrete learned components with all-zero outputs, a possible weight
setting of the stage networks. -/
noncomputable def netsZero : GNNNets ℝ ℝ ℝ ℝ ℝ where
  ffS := fun _ => 0
  ffE := fun _ => 0
  aggMsg := fun _ _ _ => 0
  aggComb := fun _ _ => (0, 0)
  i1msg := fun _ _ _ => 0
  i1comb := fun _ _ => 0
  siluH := fun h => h
  i2msg := fun _ _ _ => 0
  i2comb := fun _ _ => (0, 0)
  eMsg := fun _ _ _ => 0
  eComb := fun _ _ => 0
  hDefault := 0

/-- A two-atom molecule with unit charge-like parameter rows. -/
def twoAtomMol : Molecule where
  pos := [(0, 0, 0), (1, 0, 0)]
  params := [[0, 1], [0, 1]]

/-- C5 counterexample: two two-atom molecules with distinct per-molecule
lambda factors.  Each individual forward call succeeds, but the batched
call with distinguishing batch ids and the per-molecule lambda vectors
`[0, 1]` aborts in `lambda.view(-1,1).expand(positions.size(0),1)` (lines
386-387: a 2-entry tensor cannot expand to the 4 atoms), so no batched
energy equal to the sum of the individual energies is returned. -/
theorem batch_consistency_counterexample :
    gnnForward netsZero 169 (4/25) 32 (1/2) (batchedPositions [twoAtomMol, twoAtomMol])
        (batchedParams [twoAtomMol, twoAtomMol]) (batchIds [twoAtomMol, twoAtomMol])
        [0, 1] [0, 1]
      = Except.error "expand size mismatch" ∧
      (individualForward netsZero 169 (4/25) 32 (1/2) twoAtomMol 0 0).isOk = true ∧
      (individualForward netsZero 169 (4/25) 32 (1/2) twoAtomMol 1 1).isOk = true := by
  refine ⟨rfl, ?_, ?_⟩
  · unfold individualForward
    rw [gnnForward_ok netsZero 169 (4/25) 32 (1/2) twoAtomMol.pos twoAtomMol.params
      (List.replicate twoAtomMol.params.length 0) 0 0 rfl rfl
      (fun b hb => by rw [List.eq_of_mem_replicate hb]; decide)]
    rfl
  · unfold individualForward
    rw [gnnForward_ok netsZero 169 (4/25) 32 (1/2) twoAtomMol.pos twoAtomMol.params
      (List.replicate twoAtomMol.params.length 0) 1 1 rfl rfl
      (fun b hb => by rw [List.eq_of_mem_replicate hb]; decide)]
    rfl

/-- Witness for `batch_consistency_shared_lambda` on a one-molecule batch
with shared lambda value `1/2`. -/
theorem batch_consistency_shared_lambda_witness :
    (∀ m ∈ [twoAtomMol], m.params.length = m.pos.length ∧ m.pos.length ≠ 0) ∧
      ((∀ m ∈ [twoAtomMol], individualForward netsZero 169 (4/25) 32 (1/2) m (1/2) (1/2)
          = Except.ok (forwardEnergies netsZero 169 (4/25) 32 (1/2) m.pos m.params
              (List.replicate m.pos.length 0) (1/2) (1/2)).sum) ∧
        gnnForward netsZero 169 (4/25) 32 (1/2) (batchedPositions [twoAtomMol])
            (batchedParams [twoAtomMol]) (batchIds [twoAtomMol])
            (List.replicate (batchedPositions [twoAtomMol]).length (1/2))
            (List.replicate (batchedPositions [twoAtomMol]).length (1/2))
          = Except.ok (([twoAtomMol].map (fun m =>
              (individualForward netsZero 169 (4/25) 32 (1/2) m (1/2) (1/2)).toOption.getD 0)).sum)) :=
  have hw : ∀ m ∈ [twoAtomMol], m.params.length = m.pos.length ∧ m.pos.length ≠ 0 := by
    intro m hm
    rw [List.mem_singleton] at hm
    subst hm
    exact ⟨rfl, by decide⟩
  ⟨hw, batch_consistency_shared_lambda netsZero 169 (4/25) 32 (1/2) [twoAtomMol] (1/2) (1/2) hw⟩
